import Mathlib

/-!
Shallow embedding of the `dify-plugin-novita` repository:

* `src/models/llm/sync_models.py` — a one-shot reconciler that fetches a
  remote model catalog and updates / creates / deletes per-model YAML
  definition files in a directory, plus the regenerated `_position.yaml`
  index file.
* `src/provider/novita.py` — a credential-validation wrapper that delegates
  to the plugin framework and re-raises whatever the probe raises.

The embedding models YAML/Python values with the inductive type `Y`
(null, arbitrary-precision integers, strings, sequences, and
insertion-ordered mappings — the value universe the script's schema and
control flow range over).  A directory is an association list from file
name to file content in listing order; Python's exceptions are modelled
with `Except PyErr`.  The reconciler's network fetch is taken as an input
(the already-parsed `data` array of catalog records).
-/

/-- Python/YAML value universe used by the script: `None`, integers,
strings, lists and insertion-ordered dictionaries.  Mirrors what
`yaml.safe_load` can put into an existing definition file at the places
the script reads (the schema uses exactly these shapes; floats and
booleans play no role in any compared field). -/
inductive Y where
  | null
  | int (z : Int)
  | str (s : String)
  | list (xs : List Y)
  | dict (kvs : List (String × Y))

mutual

/-- Structural (Python `==`) equality on `Y`, by mutual recursion over the
nested inductive. -/
def Y.beq : Y → Y → Bool
  | .null, .null => true
  | .int a, .int b => a == b
  | .str a, .str b => a == b
  | .list xs, .list ys => Y.beqList xs ys
  | .dict xs, .dict ys => Y.beqDict xs ys
  | _, _ => false

/-- Elementwise equality of `Y` lists. -/
def Y.beqList : List Y → List Y → Bool
  | [], [] => true
  | a :: as, b :: bs => Y.beq a b && Y.beqList as bs
  | _, _ => false

/-- Entrywise equality of `Y` dictionaries (key order counts, as it does
for the dumped file contents). -/
def Y.beqDict : List (String × Y) → List (String × Y) → Bool
  | [], [] => true
  | (ka, va) :: as, (kb, vb) :: bs => ka == kb && Y.beq va vb && Y.beqDict as bs
  | _, _ => false

end

mutual

/-- Soundness/completeness of `Y.beq` (a `def` because the decidability
instance below, used by later definitions, depends on it). -/
def Y.beq_iff : ∀ a b : Y, Y.beq a b = true ↔ a = b
  | .null, .null => by simp [Y.beq]
  | .int a, .int b => by simp [Y.beq]
  | .str a, .str b => by simp [Y.beq]
  | .list xs, .list ys => by
      simp only [Y.beq, Y.beqList_iff xs ys, Y.list.injEq]
  | .dict xs, .dict ys => by
      simp only [Y.beq, Y.beqDict_iff xs ys, Y.dict.injEq]
  | .null, .int _ | .null, .str _ | .null, .list _ | .null, .dict _
  | .int _, .null | .int _, .str _ | .int _, .list _ | .int _, .dict _
  | .str _, .null | .str _, .int _ | .str _, .list _ | .str _, .dict _
  | .list _, .null | .list _, .int _ | .list _, .str _ | .list _, .dict _
  | .dict _, .null | .dict _, .int _ | .dict _, .str _ | .dict _, .list _ => by
      simp [Y.beq]

/-- Soundness/completeness of `Y.beqList`. -/
def Y.beqList_iff : ∀ as bs : List Y, Y.beqList as bs = true ↔ as = bs
  | [], [] => by simp [Y.beqList]
  | a :: as, b :: bs => by
      simp [Y.beqList, Y.beq_iff a b, Y.beqList_iff as bs]
  | [], _ :: _ => by simp [Y.beqList]
  | _ :: _, [] => by simp [Y.beqList]

/-- Soundness/completeness of `Y.beqDict`. -/
def Y.beqDict_iff : ∀ as bs : List (String × Y), Y.beqDict as bs = true ↔ as = bs
  | [], [] => by simp [Y.beqDict]
  | (ka, va) :: as, (kb, vb) :: bs => by
      simp [Y.beqDict, Y.beq_iff va vb, Y.beqDict_iff as bs, Prod.ext_iff, and_assoc]
  | [], _ :: _ => by simp [Y.beqDict]
  | _ :: _, [] => by simp [Y.beqDict]

end

instance : DecidableEq Y := fun a b => decidable_of_iff _ (Y.beq_iff a b)

/-- A parsed YAML mapping: insertion-ordered association list, as Python
`dict` preserves insertion order and `yaml.dump(..., sort_keys=False)`
writes keys back in that order. -/
abbrev YDict := List (String × Y)

/-- Python `d.get(k)` / `d[k]`-style lookup on an insertion-ordered dict:
first (unique) binding of the key. -/
def dictGet (kvs : YDict) (k : String) : Option Y :=
  (kvs.find? (fun p => decide (p.1 = k))).map Prod.snd

/-- Python `d[k] = v` on an insertion-ordered dict: overwrite in place when
the key exists (keeping its position), otherwise append at the end. -/
def dictSet (kvs : YDict) (k : String) (v : Y) : YDict :=
  if kvs.any (fun p => decide (p.1 = k)) then
    kvs.map (fun p => if p.1 = k then (k, v) else p)
  else kvs ++ [(k, v)]

/-- Python truthiness of a value, as used by `if not yaml_data` and
`if model_id:` in `sync_yaml_files` (lines 185, 189). -/
def pyTruthy : Y → Bool
  | .null => false
  | .int z => z != 0
  | .str s => s != ""
  | .list xs => !xs.isEmpty
  | .dict kvs => !kvs.isEmpty

/-- Whether a value can be a Python dict key / set element (lists and
dicts are unhashable and raise `TypeError`). -/
def pyHashable : Y → Bool
  | .list _ => false
  | .dict _ => false
  | _ => true

/-- Python exceptions that the script can raise. -/
inductive PyErr where
  | keyError (k : String)
  | typeError
  | attributeError
  | fileNotFoundError
deriving DecidableEq

/-! ### String helpers (Python `str` methods, ASCII-faithful) -/

/-- Python `str.strip()` with no argument: drop leading and trailing
whitespace. -/
def pyStrip (s : String) : String :=
  String.mk (((s.data.dropWhile Char.isWhitespace).reverse.dropWhile Char.isWhitespace).reverse)

/-- Python `str.lower()`. -/
def pyLower (s : String) : String :=
  String.mk (s.data.map Char.toLower)

/-- Helper for `pyTitle`: the flag records whether the previous character
was cased (alphabetic). -/
def pyTitleAux : Bool → List Char → List Char
  | _, [] => []
  | prev, c :: cs =>
    if c.isAlpha then (if prev then c.toLower else c.toUpper) :: pyTitleAux true cs
    else c :: pyTitleAux false cs

/-- Python `str.title()`: uppercase each cased character that follows a
non-cased one, lowercase the rest (used for the `# <Provider> Models`
index headers, line 158). -/
def pyTitle (s : String) : String :=
  String.mk (pyTitleAux false s.data)

/-- Test whether the first list is an initial segment of the second. -/
def listLeads : List Char → List Char → Bool
  | [], _ => true
  | _ :: _, [] => false
  | a :: as, b :: bs => a == b && listLeads as bs

/-- Substring test on character lists (`needle` occurring anywhere in
`hay`), the semantics of Python's `needle in hay` for strings. -/
def listHasSub : List Char → List Char → Bool
  | [], needle => listLeads needle []
  | h :: t, needle => listLeads needle (h :: t) || listHasSub t needle

/-- Python `needle in hay` for strings. -/
def strHasSub (hay needle : String) : Bool :=
  listHasSub hay.data needle.data

/-- Python `s.endswith(suffix)` (structural, so that concrete runs reduce
in the kernel). -/
def strEndsWith (s suffix : String) : Bool :=
  listLeads suffix.data.reverse s.data.reverse

/-- Python `s.split(sep)` for the one-character separator `"/"` used by
the script (non-empty separator semantics: `n` separators yield `n + 1`
fields, empty fields included). -/
def splitOnChar (c : Char) : List Char → List (List Char)
  | [] => [[]]
  | x :: xs =>
    match splitOnChar c xs with
    | [] => [[]]
    | h :: t => if x == c then [] :: h :: t else (x :: h) :: t

/-- Python `s.split("/")` as a list of strings. -/
def pySplit (s : String) (c : Char) : List String :=
  (splitOnChar c s.data).map String.mk

/-- Python `s.rstrip(c)` for a one-character strip set. -/
def pyRstripChar (c : Char) (s : String) : String :=
  String.mk ((s.data.reverse.dropWhile (fun x => x == c)).reverse)

/-- Python `s.rstrip()` (whitespace). -/
def pyRstripWs (s : String) : String :=
  String.mk ((s.data.reverse.dropWhile Char.isWhitespace).reverse)

/-! ### Decimal digits and the price conversion -/

/-- Fuel-driven decimal digit expansion; the fuel only bounds the
recursion depth (one step per digit). -/
def digitsAux : Nat → Nat → List Char
  | 0, _ => []
  | f + 1, n =>
    if n < 10 then [Char.ofNat (48 + n)]
    else digitsAux f (n / 10) ++ [Char.ofNat (48 + n % 10)]

/-- Standard decimal digit string of a natural number (what Python's
string formatting prints for a non-negative integer). -/
def natDigits (n : Nat) : List Char :=
  digitsAux (n + 1) n

/-- Left-pad a digit list with `'0'` to width `w` (used for the fixed
six-fractional-digit rendering of `f"{x:.6f}"`). -/
def padZeros (w : Nat) (ds : List Char) : List Char :=
  List.replicate (w - ds.length) '0' ++ ds

/-- Numeric value of a decimal digit list (Python `int(...)` on a digit
string, used for the regex group in the size heuristic). -/
def digitsToNat (ds : List Char) : Nat :=
  ds.foldl (fun acc c => acc * 10 + (c.toNat - 48)) 0

/-- Rendering of `f"{price_per_m / 1000000:.6f}"` (line 66–67): the decimal
expansion of `price_per_m / 10^6` with exactly six fractional digits.  The
embedding uses exact integer arithmetic; for the script's input domain
(catalog prices, integers well below `2^52`) CPython's double division and
fixed-precision formatting produce exactly these digits, since the
rounding error of `n / 1000000` as a double is far below half an ulp of
the sixth fractional digit. -/
def formatSixFrac (n : Nat) : String :=
  String.mk (natDigits (n / 1000000)) ++ "." ++ String.mk (padZeros 6 (natDigits (n % 1000000)))

/-- Model of `convert_price` (lines 56–67): format the per-token price with
six fractional digits, then `rstrip("0").rstrip(".")`. -/
def convert_price (price_per_m : Nat) : String :=
  pyRstripChar '.' (pyRstripChar '0' (formatSixFrac price_per_m))

/-! ### Remote catalog records and feature inference -/

/-- One record of the remote catalog's `data` array, with the fields the
script reads.  Optional fields model keys that may be absent from the
JSON object (the script uses `.get(...)` with defaults for some of them
and raising `[...]` lookups for others).  Prices and context size are
integers per the catalog schema. -/
structure ApiModel where
  id : String
  display_name : Option String
  context_size : Option Nat
  input_token_price_per_m : Option Nat
  output_token_price_per_m : Option Nat
  features : List String
  description : Option String
deriving DecidableEq

/-- The fixed reasoning keywords searched in the description (line 97). -/
def thinking_keywords : List String := ["思维", "推理", "思考"]

/-- First match of the regex `(\d+)b` in a (lowercased) character list, as
`re.search` finds it: scan positions left to right; at a digit, take the
maximal digit run from that position and require the immediately following
character to be `'b'` (backtracking inside the run cannot succeed, because
a shorter run is followed by another digit).  Returns the numeric value of
the digit run. -/
def firstSizeMatch : List Char → Option Nat
  | [] => none
  | c :: rest =>
    if c.isDigit then
      match (c :: rest).dropWhile Char.isDigit with
      | 'b' :: _ => some (digitsToNat ((c :: rest).takeWhile Char.isDigit))
      | _ => firstSizeMatch rest
    else firstSizeMatch rest

/-- Python `list(set(features))` at line 113.  CPython's set iteration
order is unspecified; the embedding fixes the admissible order that keeps
first occurrences.  Every consumer of the result compares feature lists by
set equality, so no modelled behaviour depends on this choice. -/
def pyListSet (xs : List String) : List String :=
  xs.foldl (fun acc x => if acc.contains x then acc else acc ++ [x]) []

/-- Model of `determine_model_features` (lines 70–113): map the raw
capability tags (`function-calling`, `structured-outputs`, `vision`),
then infer `agent-thought` from "think" in the lowercased id, from the
fixed reasoning keywords in the description, or — only when not already
inferred — from the first `(\d+)b` size token of the lowercased id
exceeding 70. -/
def determine_model_features (api_model : ApiModel) : List String :=
  let features :=
    api_model.features.foldl (fun acc f =>
      if f = "function-calling" then acc ++ ["tool-call", "multi-tool-call", "stream-tool-call"]
      else if f = "structured-outputs" then acc ++ ["structured-output"]
      else if f = "vision" then acc ++ ["vision"]
      else acc) []
  let model_id := api_model.id
  let description := api_model.description.getD ""
  let hasThink := strHasSub (pyLower model_id) "think"
  let hasKeyword := description != "" && thinking_keywords.any (fun kw => strHasSub description kw)
  let has_agent_thought :=
    if hasThink || hasKeyword then true
    else
      match firstSizeMatch (pyLower model_id).data with
      | some size => decide (size > 70)
      | none => false
  let features := if has_agent_thought then features ++ ["agent-thought"] else features
  pyListSet features

/-- The label text used for both language variants:
`api_model.get("display_name", "").strip() or <id>` (lines 121–122 and
223; both places fall back to the record's id, which is always present
since the catalog dictionary is keyed by it). -/
def apiTitle (api_model : ApiModel) : String :=
  let s := pyStrip (api_model.display_name.getD "")
  if s = "" then api_model.id else s

/-- The fixed `parameter_rules` list of the creation template
(lines 127–133). -/
def paramRules : Y :=
  .list [
    .dict [("name", .str "temperature"), ("use_template", .str "temperature"),
           ("min", .int 0), ("max", .int 2), ("default", .int 1)],
    .dict [("name", .str "top_p"), ("use_template", .str "top_p"),
           ("min", .int 0), ("max", .int 1), ("default", .int 1)],
    .dict [("name", .str "max_tokens"), ("use_template", .str "max_tokens"),
           ("min", .int 1), ("max", .int 2048), ("default", .int 512)],
    .dict [("name", .str "frequency_penalty"), ("use_template", .str "frequency_penalty"),
           ("min", .int (-2)), ("max", .int 2), ("default", .int 0)],
    .dict [("name", .str "presence_penalty"), ("use_template", .str "presence_penalty"),
           ("min", .int (-2)), ("max", .int 2), ("default", .int 0)]]

/-- Model of `create_yaml_template` (lines 116–140).  The raising lookups
`api_model["context_size"]`, `api_model["input_token_price_per_m"]` and
`api_model["output_token_price_per_m"]` surface as `KeyError` in the order
Python evaluates the dict literal. -/
def create_yaml_template (model_id : String) (api_model : ApiModel) : Except PyErr YDict := do
  let context_size ←
    match api_model.context_size with
    | some c => pure c
    | none => throw (PyErr.keyError "context_size")
  let input_price ←
    match api_model.input_token_price_per_m with
    | some p => pure p
    | none => throw (PyErr.keyError "input_token_price_per_m")
  let output_price ←
    match api_model.output_token_price_per_m with
    | some p => pure p
    | none => throw (PyErr.keyError "output_token_price_per_m")
  pure [("model", .str model_id),
        ("label", .dict [("zh_Hans", .str (apiTitle api_model)),
                         ("en_US", .str (apiTitle api_model))]),
        ("model_type", .str "llm"),
        ("features", .list ((determine_model_features api_model).map Y.str)),
        ("model_properties", .dict [("mode", .str "chat"), ("context_size", .int context_size)]),
        ("parameter_rules", paramRules),
        ("pricing", .dict [("input", .str (convert_price input_price)),
                           ("output", .str (convert_price output_price)),
                           ("unit", .str "0.0001"),
                           ("currency", .str "CNY")])]

/-! ### The `_position.yaml` index -/

/-- Grouping of identifiers by provider (the segment before the first
`/`), keeping the first-seen order of providers and the catalog order of
members (lines 147–153). -/
def model_groups (model_ids : List String) : List (String × List String) :=
  model_ids.foldl (fun groups model_id =>
    let provider := (pySplit model_id '/').headD ""
    if groups.any (fun g => decide (g.1 = provider)) then
      groups.map (fun g => if g.1 = provider then (g.1, g.2 ++ [model_id]) else g)
    else groups ++ [(provider, [model_id])]) []

/-- Text content written to `_position.yaml` by `create_position_yaml`
(lines 142–164): per group a title-cased comment header, the member
identifiers as `- <id>` lines and one separating blank line; the joined
text is right-stripped and one final newline is appended. -/
def positionContent (api_models : List ApiModel) : String :=
  let model_ids := api_models.map (fun m => m.id)
  let groups := model_groups model_ids
  let content := groups.foldl (fun acc g =>
    acc ++ ["# " ++ pyTitle g.1 ++ " Models"] ++ g.2.map (fun mid => "- " ++ mid) ++ [""])
    ([] : List String)
  pyRstripWs (String.intercalate "\n" content) ++ "\n"

/-! ### Directory state, loading and saving -/

/-- Content of one file in the synced directory.  `yamlDoc d` is a file
whose text is the YAML dump of the mapping `d` (dump and re-parse are
mutually inverse for the dumped mappings); `nonMapping raw` is any file
whose text does not parse to a YAML mapping — including parse failures and
the generated `_position.yaml`, whose text (comments plus a `- item` list)
parses to a YAML sequence. -/
inductive FileContent where
  | nonMapping (raw : String)
  | yamlDoc (d : YDict)
deriving DecidableEq

/-- A directory: file names with contents, in listing order. -/
abbrev DirState := List (String × FileContent)

/-- Write a file (`open(..., "w")` semantics): overwrite in place when the
name exists, otherwise add it. -/
def saveFile (dir : DirState) (name : String) (c : FileContent) : DirState :=
  if dir.any (fun e => decide (e.1 = name)) then
    dir.map (fun e => if e.1 = name then (name, c) else e)
  else dir ++ [(name, c)]

/-- `os.remove` (the caller has established the file exists). -/
def removeFile (dir : DirState) (name : String) : DirState :=
  dir.filter (fun e => !decide (e.1 = name))

/-- Look a file up by name. -/
def lookupFile (dir : DirState) (name : String) : Option FileContent :=
  (dir.find? (fun e => decide (e.1 = name))).map Prod.snd

/-- Model of `load_yaml_file` (lines 25–36): a missing or unreadable file
and a file not containing a YAML mapping both produce `{}` after a printed
warning; a mapping is returned as parsed. -/
def load_yaml_file : Option FileContent → YDict
  | none => []
  | some (.nonMapping _) => []
  | some (.yamlDoc d) => d

/-- Name of the regenerated index file. -/
def positionFileName : String := "_position.yaml"

/-! ### Scanning the directory for existing definition files -/

/-- Python `existing_files[model_id] = filename`: dict assignment with a
`Y` key (replace in place or append). -/
def regSet (ex : List (Y × String)) (k : Y) (fn : String) : List (Y × String) :=
  if ex.any (fun p => decide (p.1 = k)) then
    ex.map (fun p => if p.1 = k then (k, fn) else p)
  else ex ++ [(k, fn)]

/-- `existing_files[model_id]` / `model_id in existing_files` lookup. -/
def regGet (ex : List (Y × String)) (k : Y) : Option String :=
  (ex.find? (fun p => decide (p.1 = k))).map Prod.snd

/-- One iteration of the scan loop of `sync_yaml_files` (lines 178–190):
skip names not ending in `.yaml` (the two listed `.py` helpers never do),
skip files that load to a falsy mapping, skip a missing or falsy `model`
value, and register the file under its `model` value.  Registering an
unhashable key raises `TypeError` as in Python. -/
def scanStep (ex : List (Y × String)) (entry : String × FileContent) :
    Except PyErr (List (Y × String)) :=
  if !strEndsWith entry.1 ".yaml" || entry.1 = "check_yaml_consistency.py"
      || entry.1 = "fix_yaml_files.py" then
    pure ex
  else
    let yaml_data := load_yaml_file (some entry.2)
    if yaml_data.isEmpty then pure ex
    else
      match dictGet yaml_data "model" with
      | none => pure ex
      | some v =>
        if pyTruthy v then
          if pyHashable v then pure (regSet ex v entry.1) else throw PyErr.typeError
        else pure ex

/-! ### The per-model update path -/

/-- One recorded report line of the update path (lines 206, 215, 220, 228,
236).  The script only prints these; the embedding keeps the underlying
data instead of Python's rendered text, since only their presence and
count are observable state. -/
inductive Change where
  | contextSize (old : Option Y) (upd : Option Nat)
  | inputPrice (old : Y) (upd : String)
  | outputPrice (old : Y) (upd : String)
  | labels (oldZh oldEn : Y) (upd : String)
  | features (old : Y) (upd : List String)
deriving DecidableEq

/-- Python `v.get(k)` where `v` is an arbitrary value: `AttributeError`
unless `v` is a dict; a stored `None` and an absent key both come back as
Python `None`, i.e. `none`. -/
def mappingGet (v : Y) (k : String) : Except PyErr (Option Y) :=
  match v with
  | .dict kvs =>
    match dictGet kvs k with
    | some Y.null => pure none
    | o => pure o
  | _ => throw PyErr.attributeError

/-- Python `yaml_data[k]` on the top-level mapping: `KeyError` when
absent. -/
def itemGetDict (kvs : YDict) (k : String) : Except PyErr Y :=
  match dictGet kvs k with
  | some v => pure v
  | none => throw (PyErr.keyError k)

/-- Python `v[k]` with a string key on an arbitrary value: only dicts
support it (strings and lists require integer indices). -/
def itemGetY (v : Y) (k : String) : Except PyErr Y :=
  match v with
  | .dict kvs => itemGetDict kvs k
  | _ => throw PyErr.typeError

/-- Python `yaml_data[k1][k2] = v`: look up `k1` (raising `KeyError` when
absent), then item-assign on the inner value (raising `TypeError` when it
is not a dict).  The inner dict is reached through the same path Python
mutates in place. -/
def itemSetPath (yd : YDict) (k1 k2 : String) (v : Y) : Except PyErr YDict := do
  let inner ← itemGetDict yd k1
  match inner with
  | .dict kvs => pure (dictSet yd k1 (.dict (dictSet kvs k2 v)))
  | _ => throw PyErr.typeError

/-- Python `==` between the loaded `context_size` (a value or `None`) and
`api_model.get("context_size")` (an int or `None`), as in line 204. -/
def pyCtxEq (ycs : Option Y) (acs : Option Nat) : Bool :=
  match ycs, acs with
  | none, none => true
  | some y, some n => decide (y = Y.int (Int.ofNat n))
  | _, _ => false

/-- The value written by `yaml_data["model_properties"]["context_size"] =
api_context_size` (line 205): the int, or YAML `null` when the catalog
record lacks the field. -/
def encCtx : Option Nat → Y
  | none => Y.null
  | some n => Y.int (Int.ofNat n)

/-- Context-size update (lines 201–206). -/
def updateContext (api_model : ApiModel) (yd : YDict) : Except PyErr (YDict × List Change) := do
  let mp := (dictGet yd "model_properties").getD (Y.dict [])
  let yaml_context_size ← mappingGet mp "context_size"
  let api_context_size := api_model.context_size
  if pyCtxEq yaml_context_size api_context_size then pure (yd, [])
  else do
    let yd ← itemSetPath yd "model_properties" "context_size" (encCtx api_context_size)
    pure (yd, [Change.contextSize yaml_context_size api_context_size])

/-- Pricing update (lines 208–220); note the `.get(..., 0)` defaults for
absent catalog price fields. -/
def updatePricing (api_model : ApiModel) (yd : YDict) : Except PyErr (YDict × List Change) := do
  let api_input_price := convert_price (api_model.input_token_price_per_m.getD 0)
  let api_output_price := convert_price (api_model.output_token_price_per_m.getD 0)
  let pricing ← itemGetDict yd "pricing"
  let yin ← itemGetY pricing "input"
  let r ←
    if decide (yin = Y.str api_input_price) then pure (yd, ([] : List Change))
    else do
      let yd2 ← itemSetPath yd "pricing" "input" (.str api_input_price)
      pure (yd2, [Change.inputPrice yin api_input_price])
  let pricing2 ← itemGetDict r.1 "pricing"
  let yout ← itemGetY pricing2 "output"
  if decide (yout = Y.str api_output_price) then pure r
  else do
    let yd2 ← itemSetPath r.1 "pricing" "output" (.str api_output_price)
    pure (yd2, r.2 ++ [Change.outputPrice yout api_output_price])

/-- Label update (lines 222–228): both language variants are compared with
and set to the same title. -/
def updateLabels (api_model : ApiModel) (yd : YDict) : Except PyErr (YDict × List Change) := do
  let api_title := apiTitle api_model
  let lbl ← itemGetDict yd "label"
  let zh ← itemGetY lbl "zh_Hans"
  let en ← itemGetY lbl "en_US"
  if decide (zh = Y.str api_title) && decide (en = Y.str api_title) then pure (yd, [])
  else do
    let yd2 ← itemSetPath yd "label" "zh_Hans" (.str api_title)
    let yd3 ← itemSetPath yd2 "label" "en_US" (.str api_title)
    pure (yd3, [Change.labels zh en api_title])

/-- Python `set(v)` of a loaded value, as a list of elements compared by
`==`: lists must contain only hashable elements, iterating a string yields
its one-character strings, iterating a dict yields its keys, and
non-iterables raise `TypeError` (line 233 applies it to
`yaml_data.get("features", [])`). -/
def pyIterSet : Y → Except PyErr (List Y)
  | .list xs => if xs.all pyHashable then pure xs else throw PyErr.typeError
  | .str s => pure (s.data.map (fun c => Y.str (String.mk [c])))
  | .dict kvs => pure (kvs.map (fun p => Y.str p.1))
  | .null => throw PyErr.typeError
  | .int _ => throw PyErr.typeError

/-- Equality of the two Python sets compared in line 233. -/
def ySetEq (xs ys : List Y) : Bool :=
  xs.all (fun x => ys.any (fun y => decide (x = y)))
    && ys.all (fun y => xs.any (fun x => decide (x = y)))

/-- Feature update (lines 230–236): compared by set equality, written as
the freshly derived list. -/
def updateFeatures (api_model : ApiModel) (yd : YDict) : Except PyErr (YDict × List Change) := do
  let api_features := determine_model_features api_model
  let yaml_features := (dictGet yd "features").getD (Y.list [])
  let ys ← pyIterSet yaml_features
  if ySetEq ys (api_features.map Y.str) then pure (yd, [])
  else pure (dictSet yd "features" (.list (api_features.map Y.str)),
             [Change.features yaml_features api_features])

/-- The whole field-by-field update of one loaded mapping against its
catalog record (lines 199–236), accumulating the recorded changes in
order. -/
def updateDoc (api_model : ApiModel) (yd : YDict) : Except PyErr (YDict × List Change) := do
  let r1 ← updateContext api_model yd
  let r2 ← updatePricing api_model r1.1
  let r3 ← updateLabels api_model r2.1
  let r4 ← updateFeatures api_model r3.1
  pure (r4.1, r1.2 ++ r2.2 ++ r3.2 ++ r4.2)

/-! ### The sync driver -/

/-- State threaded through one `sync_yaml_files` run: the directory plus
the run's report (created, updated-with-changes, unchanged and deleted
files, in the order the script prints them). -/
structure SyncSt where
  dir : DirState
  created : List String
  updated : List (String × List Change)
  unchanged : List String
  deleted : List String
deriving DecidableEq

/-- File name derived for a newly created model (line 248): drop the
provider segment, join the remaining segments with `-`, append
`.yaml`. -/
def derivedFileName (model_id : String) : String :=
  String.intercalate "-" ((pySplit model_id '/').drop 1) ++ ".yaml"

/-- The dict comprehension `{model["id"]: model for model in
api_data["data"]}` (line 171): keys in first-seen order, later records
with a duplicated id overwrite the stored record in place. -/
def buildApiDict (catalog : List ApiModel) : List (String × ApiModel) :=
  catalog.foldl (fun d m =>
    if d.any (fun p => decide (p.1 = m.id)) then
      d.map (fun p => if p.1 = m.id then (m.id, m) else p)
    else d ++ [(m.id, m)]) []

/-- One iteration of the per-model loop (lines 193–256): update the
registered file in place when the id is registered (reloading its current
content, saving only when at least one change was recorded), otherwise
create the file with the derived name from the template. -/
def processEntry (existing_files : List (Y × String)) (st : SyncSt) (kv : String × ApiModel) :
    Except PyErr SyncSt :=
  match regGet existing_files (Y.str kv.1) with
  | some filename =>
    let yaml_data := load_yaml_file (lookupFile st.dir filename)
    match updateDoc kv.2 yaml_data with
    | .error e => throw e
    | .ok r =>
      if r.2.isEmpty then pure { st with unchanged := st.unchanged ++ [filename] }
      else pure { st with dir := saveFile st.dir filename (.yamlDoc r.1),
                          updated := st.updated ++ [(filename, r.2)] }
  | none =>
    match create_yaml_template kv.1 kv.2 with
    | .error e => throw e
    | .ok d => pure { st with dir := saveFile st.dir (derivedFileName kv.1) (.yamlDoc d),
                              created := st.created ++ [derivedFileName kv.1] }

/-- One iteration of the deletion loop (lines 259–263): a registered model
absent from the catalog dictionary has its file removed (`os.remove`
raises when the path is gone). -/
def deleteEntry (api_models : List (String × ApiModel)) (st : SyncSt) (reg : Y × String) :
    Except PyErr SyncSt :=
  if api_models.any (fun p => decide (Y.str p.1 = reg.1)) then pure st
  else if st.dir.any (fun e => decide (e.1 = reg.2)) then
    pure { st with dir := removeFile st.dir reg.2, deleted := st.deleted ++ [reg.2] }
  else throw PyErr.fileNotFoundError

/-- Model of `sync_yaml_files` (lines 167–263) for a fetched catalog and a
starting directory: build the catalog dictionary, rewrite
`_position.yaml` (its generated text is not a YAML mapping), scan the
directory (which now includes the index file) registering definition
files by model id, run the per-model update/create loop, then the
deletion loop. -/
def sync_yaml_files (catalog : List ApiModel) (dir0 : DirState) : Except PyErr SyncSt := do
  let api_models := buildApiDict catalog
  let dir1 := saveFile dir0 positionFileName (FileContent.nonMapping (positionContent catalog))
  let existing_files ← dir1.foldlM scanStep []
  let st ← api_models.foldlM (processEntry existing_files) (SyncSt.mk dir1 [] [] [] [])
  existing_files.foldlM (deleteEntry api_models) st

/-! ### The provider credential validator (`src/provider/novita.py`) -/

/-- Failure modes of the delegated probe call inside the `try` block of
`NovitaProvider.validate_provider_credentials` (lines 18–23):
the distinguished `CredentialsValidateFailedError`, or any other
exception (abstracted by a code). -/
inductive ProviderErr where
  | credentialsInvalid
  | other (code : Nat)
deriving DecidableEq

/-- Model of `NovitaProvider.validate_provider_credentials` (lines 11–28)
over the outcome of the delegated probe invocation (`get_model_instance`
plus `validate_credentials` against the fixed probe model): the first
`except` clause re-raises the distinguished error unchanged, the second
logs and re-raises any other exception unchanged.  The boolean records
whether `logger.exception` ran. -/
def validate_provider_credentials (probe : Except ProviderErr Unit) :
    Except ProviderErr Unit × Bool :=
  match probe with
  | .ok _ => (.ok (), false)
  | .error .credentialsInvalid => (.error .credentialsInvalid, false)
  | .error (.other c) => (.error (.other c), true)

/-! ### Specification-side definitions used to state the claims -/

/-- Strip trailing `'0'` characters from a digit list. -/
def stripTrailingZeros (l : List Char) : List Char :=
  (l.reverse.dropWhile (fun x => x == '0')).reverse

/-- Decimal representation of the rational `n / 10 ^ k` written with the
minimum number of fractional digits (trailing zeros and a trailing
decimal point stripped), built directly from the words of the spec's
price-conversion rule rather than from the code's format-then-strip
pipeline. -/
def decimalOfScaled (k : Nat) (n : Nat) : String :=
  let frac := stripTrailingZeros (padZeros k (natDigits (n % 10 ^ k)))
  if frac.isEmpty then String.mk (natDigits (n / 10 ^ k))
  else String.mk (natDigits (n / 10 ^ k)) ++ "." ++ String.mk frac

/-- The stored price string as the claim words it for C3: the decimal
representation of `raw / 100` (that is, `raw / 1_000_000 / 0.0001`) with
the minimum number of decimal digits. -/
def specPriceRawOver100 (raw : Nat) : String :=
  decimalOfScaled 2 raw

/-- Values of every occurrence of the pattern `<digits>b` in a character
list: at each starting position, the maximal digit run immediately
followed by `'b'`.  Used to state C5's "contains a size token" reading,
which quantifies over all matches rather than the first one. -/
def anySizeMatch : List Char → List Nat
  | [] => []
  | c :: rest =>
    if c.isDigit then
      match (c :: rest).dropWhile Char.isDigit with
      | 'b' :: _ => digitsToNat ((c :: rest).takeWhile Char.isDigit) :: anySizeMatch rest
      | _ => anySizeMatch rest
    else anySizeMatch rest

/-- C5's claim-side size condition: the (lowercased) identifier contains
some size token `<digits>b` whose numeric value exceeds 70. -/
def hasSizeTokenGt70 (id : String) : Bool :=
  (anySizeMatch (pyLower id).data).any (fun v => decide (70 < v))

/-- The truthy `model` field values of the `.yaml` definition files of a
directory, in listing order (the values C1 compares with the catalog's
identifier set). -/
def truthyModelVals (dir : DirState) : List Y :=
  dir.filterMap (fun e =>
    if strEndsWith e.1 ".yaml" then
      match e.2 with
      | .yamlDoc d =>
        match dictGet d "model" with
        | some v => if pyTruthy v then some v else none
        | none => none
      | .nonMapping _ => none
    else none)

/-- Declarative account of the scan loop: the registration each directory
entry contributes, if any (same filters as `scanStep`, without the
side conditions on hashability that can only raise). -/
def fileReg (entry : String × FileContent) : Option (Y × String) :=
  if !strEndsWith entry.1 ".yaml" || entry.1 = "check_yaml_consistency.py"
      || entry.1 = "fix_yaml_files.py" then none
  else
    let yaml_data := load_yaml_file (some entry.2)
    if yaml_data.isEmpty then none
    else
      match dictGet yaml_data "model" with
      | none => none
      | some v => if pyTruthy v then some (v, entry.1) else none

/-- All registrations a directory scan would make, in listing order,
before dict-key collapsing. -/
def registrations (dir : DirState) : List (Y × String) :=
  dir.filterMap fileReg

/-- The catalog-dictionary ids that are not registered to any existing
file: these take the creation path. -/
def newModelIds (api_models : List (String × ApiModel)) (ex : List (Y × String)) : List String :=
  (api_models.filter (fun kv => (regGet ex (Y.str kv.1)).isNone)).map Prod.fst

/-- Field-by-field agreement of a loaded mapping with the values the sync
derives from its catalog record, phrased with the same readers and
comparisons the update path uses (context size, both price strings, both
label variants, and the feature set compared as a set).  This is the
"every governed field equals the derived value" relation of the spec's
invariant. -/
def FieldsDerived (api_model : ApiModel) (d : YDict) : Prop :=
  (∃ r, mappingGet ((dictGet d "model_properties").getD (Y.dict [])) "context_size" = .ok r ∧
        pyCtxEq r api_model.context_size = true) ∧
  (∃ p, itemGetDict d "pricing" = .ok p ∧
        itemGetY p "input" = .ok (.str (convert_price (api_model.input_token_price_per_m.getD 0))) ∧
        itemGetY p "output" = .ok (.str (convert_price (api_model.output_token_price_per_m.getD 0)))) ∧
  (∃ l, itemGetDict d "label" = .ok l ∧
        itemGetY l "zh_Hans" = .ok (.str (apiTitle api_model)) ∧
        itemGetY l "en_US" = .ok (.str (apiTitle api_model))) ∧
  (∃ ys, pyIterSet ((dictGet d "features").getD (Y.list [])) = .ok ys ∧
         ySetEq ys ((determine_model_features api_model).map Y.str) = true)

/-- Well-formedness of a starting state for the amended C1/C2 claims:
file names are unique, the truthy model values of the scanned definition
files are pairwise distinct, and the file names derived for the catalog
ids that would be newly created are pairwise distinct and do not collide
with any scanned file name.  (`dir1` is the directory after the index
rewrite, which is what the scan sees.) -/
def CleanState (catalog : List ApiModel) (dir1 : DirState) : Prop :=
  (dir1.map Prod.fst).Nodup ∧
  ((registrations dir1).map Prod.fst).Nodup ∧
  ((newModelIds (buildApiDict catalog) (registrations dir1)).map derivedFileName).Nodup ∧
  (∀ nm ∈ (newModelIds (buildApiDict catalog) (registrations dir1)).map derivedFileName,
    nm ∉ dir1.map Prod.fst) ∧
  (∀ m ∈ catalog, m.id ≠ "")

/-- Loop invariant of the per-model update/create loop: after processing
the prefix `done` of the catalog dictionary, the directory names are the
starting names plus the derived names created so far, unregistered files
and still-unprocessed registered files are untouched, every processed
registered model's file holds a mapping whose governed fields equal the
derived values, and every processed unregistered model's file holds the
generated template. -/
def SyncInv (dir1 : DirState) (ex : List (Y × String)) (done : List (String × ApiModel))
    (st : SyncSt) : Prop :=
  (st.dir.map Prod.fst = dir1.map Prod.fst ++
     ((done.filter (fun kv => (regGet ex (Y.str kv.1)).isNone)).map
       (fun kv => derivedFileName kv.1))) ∧
  (∀ fn c, (fn, c) ∈ dir1 → (∀ m, (m, fn) ∉ ex) → (fn, c) ∈ st.dir) ∧
  (∀ m fn, (m, fn) ∈ ex → (∀ kv ∈ done, ¬Y.str kv.1 = m) → ∀ c, (fn, c) ∈ dir1 → (fn, c) ∈ st.dir) ∧
  (∀ m fn, (m, fn) ∈ ex → ∀ kv ∈ done, Y.str kv.1 = m →
     ∃ d', (fn, FileContent.yamlDoc d') ∈ st.dir ∧ FieldsDerived kv.2 d' ∧
       dictGet d' "model" = some m) ∧
  (∀ kv ∈ done, (regGet ex (Y.str kv.1)).isNone = true →
     ∃ d, create_yaml_template kv.1 kv.2 = .ok d ∧
       (derivedFileName kv.1, FileContent.yamlDoc d) ∈ st.dir)

/-- The directory as the scan sees it: the starting directory after the
unconditional index rewrite. -/
def dirAfterIndex (catalog : List ApiModel) (dir0 : DirState) : DirState :=
  saveFile dir0 positionFileName (FileContent.nonMapping (positionContent catalog))

/-! ### Concrete scenarios used to instantiate the run-level theorems -/

def catW1 : List ApiModel := [⟨"acme/alpha", some "Alpha", some 4096, some 100, some 200, [], none⟩]

def stW1 : SyncSt := (sync_yaml_files catW1 []).toOption.getD ⟨[], [], [], [], []⟩

def catW2 : List ApiModel :=
  [⟨"beta/bravo", none, some 8192, some 0, some 0, ["function-calling"], none⟩]

def stW2 : SyncSt := (sync_yaml_files catW2 []).toOption.getD ⟨[], [], [], [], []⟩

def catW7 : List ApiModel := [⟨"gamma/charlie", none, some 2048, some 500, some 1000, [], none⟩]

def dirW7 : DirState := [("bad.yaml", FileContent.nonMapping "not a mapping")]

def stW7 : SyncSt := (sync_yaml_files catW7 dirW7).toOption.getD ⟨[], [], [], [], []⟩

def catW10 : List ApiModel := [⟨"delta/dog", none, some 1024, some 100, some 100, [], none⟩]

def dirW10 : DirState := [("junk.yaml", FileContent.yamlDoc [("note", Y.str "keep")])]

def stW10 : SyncSt := (sync_yaml_files catW10 dirW10).toOption.getD ⟨[], [], [], [], []⟩

/-! ## Theorems -/

/-! ### Helper lemmas for the feature-inference claims -/

theorem pyListSet_aux (x : String) (l acc : List String) :
    x ∈ l.foldl (fun acc y => if acc.contains y then acc else acc ++ [y]) acc ↔ x ∈ acc ∨ x ∈ l := by
  induction l generalizing acc with
  | nil => simp
  | cons a as ih =>
    simp only [List.foldl_cons, ih, List.mem_cons]
    have hstep : (x ∈ if acc.contains a then acc else acc ++ [a]) ↔ (x ∈ acc ∨ x = a) := by
      by_cases h : a ∈ acc
      · rw [if_pos (List.elem_iff.mpr h)]
        constructor
        · tauto
        · rintro (h1 | h1)
          · exact h1
          · rwa [h1]
      · rw [if_neg (fun hc => h (List.elem_iff.mp hc))]
        simp [List.mem_append]
    rw [hstep]
    tauto

theorem pyListSet_mem (x : String) (l : List String) : x ∈ pyListSet l ↔ x ∈ l := by
  unfold pyListSet
  rw [pyListSet_aux]
  simp

theorem mapped_features_sub (x : String) (l : List String) (acc : List String) :
    x ∈ l.foldl (fun acc f =>
      if f = "function-calling" then acc ++ ["tool-call", "multi-tool-call", "stream-tool-call"]
      else if f = "structured-outputs" then acc ++ ["structured-output"]
      else if f = "vision" then acc ++ ["vision"]
      else acc) acc →
    x ∈ acc ∨ x ∈ ["tool-call", "multi-tool-call", "stream-tool-call", "structured-output", "vision"] := by
  induction l generalizing acc with
  | nil => exact fun h => Or.inl h
  | cons a as ih =>
    intro h
    simp only [List.foldl_cons] at h
    rcases ih _ h with h1 | h1
    · split at h1
      · rcases List.mem_append.mp h1 with h2 | h2
        · exact Or.inl h2
        · simp only [List.mem_cons, List.mem_singleton] at h2 ⊢; tauto
      · split at h1
        · rcases List.mem_append.mp h1 with h2 | h2
          · exact Or.inl h2
          · simp only [List.mem_cons, List.mem_singleton] at h2 ⊢; tauto
        · split at h1
          · rcases List.mem_append.mp h1 with h2 | h2
            · exact Or.inl h2
            · simp only [List.mem_cons, List.mem_singleton] at h2 ⊢; tauto
          · exact Or.inl h1
    · exact Or.inr h1

/-- C5 (amended): `agent-thought` is inferred iff the lowercased identifier contains "think", or the description is non-empty and contains one of the fixed reasoning keywords, or the FIRST size token `<digits>b` of the lowercased identifier (the leftmost regex match) has value exceeding 70. -/
theorem C5_amended (m : ApiModel) :
    "agent-thought" ∈ determine_model_features m ↔
      (strHasSub (pyLower m.id) "think" = true ∨
       ((m.description.getD "") ≠ "" ∧ ∃ kw ∈ thinking_keywords, strHasSub (m.description.getD "") kw = true) ∨
       (∃ v, firstSizeMatch (pyLower m.id).data = some v ∧ 70 < v)) := by
  simp only [determine_model_features]
  split
  · next hg =>
    rw [if_pos rfl, pyListSet_mem]
    apply iff_of_true
    · exact List.mem_append.mpr (Or.inr (by simp))
    · rw [Bool.or_eq_true] at hg
      rcases hg with h | h
      · exact Or.inl h
      · rw [Bool.and_eq_true] at h
        exact Or.inr (Or.inl ⟨by simpa using h.1, by simpa [List.any_eq_true] using h.2⟩)
  · next hg =>
    rcases hm : firstSizeMatch (pyLower m.id).data with _ | v
    · rw [if_neg (by simp), pyListSet_mem]
      apply iff_of_false
      · intro h
        have := mapped_features_sub _ _ _ h
        simp at this
      · rintro (h | h | ⟨v, hv, h70⟩)
        · exact hg (by rw [Bool.or_eq_true]; exact Or.inl h)
        · refine hg ?_
          rw [Bool.or_eq_true]
          refine Or.inr ?_
          rw [Bool.and_eq_true]
          exact ⟨by simpa using h.1, by simpa [List.any_eq_true] using h.2⟩
        · cases hv
    · by_cases h70 : 70 < v
      · rw [if_pos (by simpa using h70), pyListSet_mem]
        apply iff_of_true
        · exact List.mem_append.mpr (Or.inr (by simp))
        · exact Or.inr (Or.inr ⟨v, rfl, h70⟩)
      · rw [if_neg (by simpa using h70), pyListSet_mem]
        apply iff_of_false
        · intro h
          have := mapped_features_sub _ _ _ h
          simp at this
        · rintro (h | h | ⟨w, hw, h70w⟩)
          · exact hg (by rw [Bool.or_eq_true]; exact Or.inl h)
          · refine hg ?_
            rw [Bool.or_eq_true]
            refine Or.inr ?_
            rw [Bool.and_eq_true]
            exact ⟨by simpa using h.1, by simpa [List.any_eq_true] using h.2⟩
          · cases hw
            exact h70 h70w

/-- C8: the credential validation returns normally, re-raises the distinguished credential-invalid exception unchanged, or logs and re-raises any other probe exception unchanged; it raises iff the delegated probe raises, and the log fires exactly on the non-distinguished failures. -/
theorem C8_thm (probe : Except ProviderErr Unit) :
    (validate_provider_credentials probe).1 = probe ∧
      ((validate_provider_credentials probe).2 = true ↔ ∃ c, probe = .error (.other c)) :=
  match probe with
  | .ok () => ⟨rfl, by simp [validate_provider_credentials]⟩
  | .error .credentialsInvalid => ⟨rfl, by simp [validate_provider_credentials]⟩
  | .error (.other c) => ⟨rfl, iff_of_true rfl ⟨c, rfl⟩⟩

/-- C6: a catalog with identifiers `acme/foo`, `acme/bar`, `zeta/baz` in that order yields exactly the two groups `Acme` and `Zeta` in first-seen order, members in catalog order, and the index content with title-cased headers and a blank separating line. -/
theorem C6_thm (m1 m2 m3 : ApiModel) (h1 : m1.id = "acme/foo") (h2 : m2.id = "acme/bar")
    (h3 : m3.id = "zeta/baz") :
    model_groups [m1.id, m2.id, m3.id] =
        [("acme", ["acme/foo", "acme/bar"]), ("zeta", ["zeta/baz"])] ∧
      positionContent [m1, m2, m3] =
        "# Acme Models\n- acme/foo\n- acme/bar\n\n# Zeta Models\n- zeta/baz\n" := by
  constructor
  · rw [h1, h2, h3]; decide
  · have hid : [m1, m2, m3].map (fun m => m.id) = ["acme/foo", "acme/bar", "zeta/baz"] := by
      simp [h1, h2, h3]
    simp only [positionContent, hid]
    decide

/-- C6 witness: the grouping and index content at the concrete three-record catalog. -/
theorem C6_witness :
    model_groups ["acme/foo", "acme/bar", "zeta/baz"] =
        [("acme", ["acme/foo", "acme/bar"]), ("zeta", ["zeta/baz"])] ∧
      positionContent
          [⟨"acme/foo", none, none, none, none, [], none⟩,
           ⟨"acme/bar", none, none, none, none, [], none⟩,
           ⟨"zeta/baz", none, none, none, none, [], none⟩] =
        "# Acme Models\n- acme/foo\n- acme/bar\n\n# Zeta Models\n- zeta/baz\n" :=
  C6_thm ⟨"acme/foo", none, none, none, none, [], none⟩
    ⟨"acme/bar", none, none, none, none, [], none⟩
    ⟨"zeta/baz", none, none, none, none, [], none⟩ rfl rfl rfl

/-- C9: a missing input (or output) price field on a remote record is substituted by 0 on the update path (making it behave exactly as a record with price 0, whose stored string is "0"), while the same missing field makes the creation path fail with the uncaught `KeyError`. -/
theorem C9_thm (api : ApiModel) (d : YDict) (mid : String) (c : Nat) :
    (api.input_token_price_per_m = none →
      updateDoc api d = updateDoc { api with input_token_price_per_m := some 0 } d) ∧
    (api.output_token_price_per_m = none →
      updateDoc api d = updateDoc { api with output_token_price_per_m := some 0 } d) ∧
    convert_price 0 = "0" ∧
    (api.context_size = some c → api.input_token_price_per_m = none →
      create_yaml_template mid api = .error (PyErr.keyError "input_token_price_per_m")) := by
  obtain ⟨id, dn, cs, ip, op, fs, desc⟩ := api
  refine ⟨?_, ?_, by decide, ?_⟩
  · rintro rfl
    have hc : updateContext ⟨id, dn, cs, none, op, fs, desc⟩ =
        updateContext ⟨id, dn, cs, some 0, op, fs, desc⟩ := by
      funext yd; simp [updateContext]
    have hp : updatePricing ⟨id, dn, cs, none, op, fs, desc⟩ =
        updatePricing ⟨id, dn, cs, some 0, op, fs, desc⟩ := by
      funext yd; simp [updatePricing]
    have hl : updateLabels ⟨id, dn, cs, none, op, fs, desc⟩ =
        updateLabels ⟨id, dn, cs, some 0, op, fs, desc⟩ := by
      funext yd; simp [updateLabels, apiTitle]
    have hf : updateFeatures ⟨id, dn, cs, none, op, fs, desc⟩ =
        updateFeatures ⟨id, dn, cs, some 0, op, fs, desc⟩ := by
      funext yd; simp [updateFeatures, determine_model_features]
    simp only [updateDoc, hc, hp, hl, hf]
  · rintro rfl
    have hc : updateContext ⟨id, dn, cs, ip, none, fs, desc⟩ =
        updateContext ⟨id, dn, cs, ip, some 0, fs, desc⟩ := by
      funext yd; simp [updateContext]
    have hp : updatePricing ⟨id, dn, cs, ip, none, fs, desc⟩ =
        updatePricing ⟨id, dn, cs, ip, some 0, fs, desc⟩ := by
      funext yd; simp [updatePricing]
    have hl : updateLabels ⟨id, dn, cs, ip, none, fs, desc⟩ =
        updateLabels ⟨id, dn, cs, ip, some 0, fs, desc⟩ := by
      funext yd; simp [updateLabels, apiTitle]
    have hf : updateFeatures ⟨id, dn, cs, ip, none, fs, desc⟩ =
        updateFeatures ⟨id, dn, cs, ip, some 0, fs, desc⟩ := by
      funext yd; simp [updateFeatures, determine_model_features]
    simp only [updateDoc, hc, hp, hl, hf]
  · rintro rfl rfl
    rfl

/-- C9 witness: the creation path fails at a concrete record with `context_size` present and no input price. -/
theorem C9_witness :
    create_yaml_template "a/x" ⟨"a/x", none, some 4096, none, some 17800, [], none⟩ =
      .error (PyErr.keyError "input_token_price_per_m") :=
  (C9_thm ⟨"a/x", none, some 4096, none, some 17800, [], none⟩ [] "a/x" 4096).2.2.2 rfl rfl

/-- C1 counterexample: with catalog ids `a/x` and `b/x` (whose derived creation file names collide) and an empty directory the run completes, but the set of truthy `model` values of the resulting definition files is `{b/x}`, not `{a/x, b/x}`. -/
theorem C1_counterexample :
    (sync_yaml_files
        [⟨"a/x", none, some 4096, some 100, some 100, [], none⟩,
         ⟨"b/x", none, some 2048, some 100, some 100, [], none⟩] []).toOption.map
      (fun st => ySetEq (truthyModelVals st.dir) [Y.str "a/x", Y.str "b/x"]) = some false := by
  decide

/-- C2 counterexample: with catalog ids `a/x` and `b/x` and an empty starting directory, the second run against the unchanged catalog performs a per-model creation write and an update write (`x.yaml` in both lists), not zero writes. -/
theorem C2_counterexample :
    ((sync_yaml_files
        [⟨"a/x", none, some 4096, some 100, some 100, [], none⟩,
         ⟨"b/x", none, some 2048, some 100, some 100, [], none⟩] []).bind
      (fun st1 => sync_yaml_files
        [⟨"a/x", none, some 4096, some 100, some 100, [], none⟩,
         ⟨"b/x", none, some 2048, some 100, some 100, [], none⟩] st1.dir)).toOption.map
      (fun st2 => (st2.created, st2.updated.map Prod.fst)) = some (["x.yaml"], ["x.yaml"]) := by
  decide

/-- C10 counterexample: a `.yaml` file whose mapping has a non-truthy `model` is overwritten when a created file's derived name collides with it, so the claim's unconditional frame property fails. -/
theorem C10_counterexample :
    (sync_yaml_files [⟨"p/x", none, some 64, some 0, some 0, [], none⟩]
        [("x.yaml", FileContent.yamlDoc [("model", Y.str "")])]).toOption.map
      (fun st => decide (lookupFile st.dir "x.yaml" =
        some (FileContent.yamlDoc [("model", Y.str "")]))) = some false := by
  decide

/-- C3 counterexample: `convert_price 8900` is "0.0089", but the claimed stored value — the minimal-digit decimal representation of `8900 / 100` — is "89". -/
theorem C3_counterexample :
    convert_price 8900 = "0.0089" ∧ specPriceRawOver100 8900 = "89" ∧
      ("0.0089" : String) ≠ "89" := by
  decide

/-- C5 counterexample: the identifier `acme/8b-72b` contains the size token `72b` exceeding 70 and has no other trigger, yet the code (which only consults the first regex match, `8b`) does not infer `agent-thought`. -/
theorem C5_counterexample :
    ((determine_model_features ⟨"acme/8b-72b", none, none, none, none, [], none⟩).contains
        "agent-thought") = false ∧
      hasSizeTokenGt70 "acme/8b-72b" = true := by
  decide

/-! ### Decimal-digit lemmas for the price conversion claims -/

theorem digitsAux_all_digit : ∀ (f n : Nat), ∀ c ∈ digitsAux f n, c.isDigit = true := by
  intro f
  induction f with
  | zero => intro n c hc; simp [digitsAux] at hc
  | succ f ih =>
    intro n c hc
    rw [digitsAux] at hc
    split at hc
    · next h =>
      simp only [List.mem_singleton] at hc
      subst hc
      interval_cases n <;> decide
    · rcases List.mem_append.mp hc with h1 | h1
      · exact ih _ _ h1
      · simp only [List.mem_singleton] at h1
        subst h1
        have hm : n % 10 < 10 := Nat.mod_lt _ (by norm_num)
        set m := n % 10 with hmm
        clear_value m
        interval_cases m <;> decide

theorem natDigits_all_digit (n : Nat) : ∀ c ∈ natDigits n, c.isDigit = true :=
  digitsAux_all_digit (n + 1) n

theorem digitsToNat_append_singleton (a : List Char) (c : Char) :
    digitsToNat (a ++ [c]) = digitsToNat a * 10 + (c.toNat - 48) := by
  simp [digitsToNat, List.foldl_append]

theorem digitsToNat_digitsAux : ∀ (f n : Nat), n < 10 ^ f → digitsToNat (digitsAux f n) = n := by
  intro f
  induction f with
  | zero => intro n h; simp at h; simp [h, digitsAux, digitsToNat]
  | succ f ih =>
    intro n h
    rw [digitsAux]
    split
    · next h10 =>
      have : ∀ m, m < 10 → digitsToNat [Char.ofNat (48 + m)] = m := by
        intro m hm; interval_cases m <;> decide
      exact this n h10
    · next h10 =>
      rw [digitsToNat_append_singleton]
      have hdiv : n / 10 < 10 ^ f := by
        rw [Nat.div_lt_iff_lt_mul (by norm_num : (0:Nat) < 10)]
        calc n < 10 ^ (f + 1) := h
        _ = 10 ^ f * 10 := by ring
      rw [ih _ hdiv]
      have hm : n % 10 < 10 := Nat.mod_lt _ (by norm_num)
      have : ∀ m, m < 10 → (Char.ofNat (48 + m)).toNat - 48 = m := by
        intro m hmlt; interval_cases m <;> decide
      rw [this _ hm]
      omega

theorem digitsToNat_natDigits (n : Nat) : digitsToNat (natDigits n) = n := by
  apply digitsToNat_digitsAux
  calc n < 10 ^ n := Nat.lt_pow_self (by norm_num) n
  _ ≤ 10 ^ (n + 1) := Nat.pow_le_pow_right (by norm_num) (Nat.le_succ n)

theorem natDigits_inj {m n : Nat} (h : natDigits m = natDigits n) : m = n := by
  have := digitsToNat_natDigits m
  rw [h, digitsToNat_natDigits] at this
  omega

theorem natDigits_ne_nil (n : Nat) : natDigits n ≠ [] := by
  rw [natDigits, digitsAux]
  split <;> simp

theorem digit_ne_dot {c : Char} (h : c.isDigit = true) : c ≠ '.' := by
  intro hc
  subst hc
  exact absurd h (by decide)

theorem digit_not_dot_beq {c : Char} (h : c.isDigit = true) : (c == '.') = false := by
  rcases hb : c == '.' with _ | _
  · rfl
  · exact absurd (by simpa using hb) (digit_ne_dot h)

theorem digitsToNat_all_zero {ds : List Char} (h : ∀ c ∈ ds, c = '0') : digitsToNat ds = 0 := by
  induction ds with
  | nil => rfl
  | cons c cs ih =>
    have hc := h c (by simp)
    subst hc
    have : digitsToNat ('0' :: cs) = digitsToNat cs := by
      simp [digitsToNat]
    rw [this]
    exact ih (fun c hc => h c (by simp [hc]))

theorem digitsToNat_replicate_zero_append (k : Nat) (ds : List Char) :
    digitsToNat (List.replicate k '0' ++ ds) = digitsToNat ds := by
  induction k with
  | zero => simp
  | succ k ih =>
    rw [List.replicate_succ, List.cons_append]
    have : digitsToNat ('0' :: (List.replicate k '0' ++ ds)) =
        digitsToNat (List.replicate k '0' ++ ds) := by
      simp [digitsToNat]
    rw [this, ih]

theorem digitsToNat_padZeros (k : Nat) (ds : List Char) :
    digitsToNat (padZeros k ds) = digitsToNat ds := by
  rw [padZeros, digitsToNat_replicate_zero_append]

theorem padZeros_all_digit (k : Nat) (ds : List Char) (h : ∀ c ∈ ds, c.isDigit = true) :
    ∀ c ∈ padZeros k ds, c.isDigit = true := by
  intro c hc
  rcases List.mem_append.mp hc with h1 | h1
  · have := List.eq_of_mem_replicate h1
    subst this; decide
  · exact h _ h1

theorem padZeros_length {k : Nat} {ds : List Char} (h : ds.length ≤ k) :
    (padZeros k ds).length = k := by
  simp [padZeros]
  omega

theorem digitsAux_length_le : ∀ (f n k : Nat), n < 10 ^ k → 0 < k →
    (digitsAux f n).length ≤ k := by
  intro f
  induction f with
  | zero => intro n k _ _; simp [digitsAux]
  | succ f ih =>
    intro n k h hk
    rw [digitsAux]
    split
    · next h10 =>
      simpa using hk
    · next h10 =>
      push_neg at h10
      have hk2 : 2 ≤ k := by
        by_contra hc
        push_neg at hc
        interval_cases k
        all_goals omega
      have hdiv : n / 10 < 10 ^ (k - 1) := by
        rw [Nat.div_lt_iff_lt_mul (by norm_num : (0:Nat) < 10)]
        have : 10 ^ (k - 1) * 10 = 10 ^ k := by
          rw [← pow_succ]
          congr 1
          omega
        omega
      have := ih (n / 10) (k - 1) hdiv (by omega)
      simp only [List.length_append, List.length_singleton]
      omega

theorem natDigits_length_le {n k : Nat} (h : n < 10 ^ k) (hk : 0 < k) :
    (natDigits n).length ≤ k :=
  digitsAux_length_le (n + 1) n k h hk

theorem rdropWhile_append_of_ne_nil {α : Type} (p : α → Bool) (a b : List α)
    (h : List.rdropWhile p b ≠ []) :
    List.rdropWhile p (a ++ b) = a ++ List.rdropWhile p b := by
  rw [List.rdropWhile, List.reverse_append, List.dropWhile_append]
  rw [List.rdropWhile] at h
  have hb : ¬(List.dropWhile p b.reverse).isEmpty = true := by
    intro hc
    rw [List.isEmpty_iff] at hc
    rw [hc] at h
    simp at h
  rw [if_neg hb, List.reverse_append, List.reverse_reverse]
  rfl

theorem rdropWhile_append_replicate {α : Type} (p : α → Bool) (x : α) (hx : p x = true)
    (l : List α) : ∀ k, List.rdropWhile p (l ++ List.replicate k x) = List.rdropWhile p l := by
  intro k
  induction k with
  | zero => simp
  | succ k ih =>
    rw [List.replicate_succ' k x, ← List.append_assoc, List.rdropWhile_concat_pos _ _ _ hx, ih]

theorem mem_of_mem_rdropWhile {α : Type} {p : α → Bool} {l : List α} {c : α}
    (h : c ∈ List.rdropWhile p l) : c ∈ l :=
  (List.rdropWhile_prefix p l).sublist.subset h

theorem pyRstripChar_data (c : Char) (s : String) :
    (pyRstripChar c s).data = List.rdropWhile (fun x => x == c) s.data := rfl

theorem formatSixFrac_data (n : Nat) :
    (formatSixFrac n).data =
      natDigits (n / 1000000) ++ '.' :: padZeros 6 (natDigits (n % 1000000)) := by
  show (String.mk (natDigits (n / 1000000)) ++ "." ++
      String.mk (padZeros 6 (natDigits (n % 1000000)))).data = _
  rw [String.data_append, String.data_append]
  rw [show (".".data) = ['.'] from by decide]
  simp

theorem natDigits_last_not_dot (m : Nat) (hl : natDigits m ≠ []) :
    ¬(fun x => x == '.') ((natDigits m).getLast hl) = true := by
  have hmem := List.getLast_mem hl
  have := natDigits_all_digit m _ hmem
  simpa using digit_ne_dot this

theorem convert_price_eq_decimal (n : Nat) : convert_price n = decimalOfScaled 6 n := by
  have h6 : (10 : Nat) ^ 6 = 1000000 := by norm_num
  apply String.ext
  rw [show convert_price n = pyRstripChar '.' (pyRstripChar '0' (formatSixFrac n)) from rfl]
  rw [pyRstripChar_data, pyRstripChar_data, formatSixFrac_data]
  by_cases h : n % 1000000 = 0
  · have hP : padZeros 6 (natDigits (n % 1000000)) = List.replicate 6 '0' := by
      rw [h]; decide
    rw [hP]
    have hsplit : natDigits (n / 1000000) ++ '.' :: List.replicate 6 '0' =
        (natDigits (n / 1000000) ++ ['.']) ++ List.replicate 6 '0' := by
      simp
    rw [hsplit, rdropWhile_append_replicate _ _ (by decide) _ 6,
        List.rdropWhile_concat_neg _ _ _ (by decide),
        List.rdropWhile_concat_pos _ _ _ (by decide)]
    rw [List.rdropWhile_eq_self_iff.mpr (natDigits_last_not_dot _)]
    rw [decimalOfScaled]
    have hfrac : stripTrailingZeros (padZeros 6 (natDigits (n % 10 ^ 6))) = [] := by
      rw [h6, hP]
      rw [show stripTrailingZeros (List.replicate 6 '0') =
          List.rdropWhile (fun x => x == '0') (List.replicate 6 '0') from rfl]
      rw [List.rdropWhile_eq_nil_iff]
      intro x hx
      rw [List.eq_of_mem_replicate hx]
      decide
    rw [hfrac]
    simp [h6]
  · have hf : List.rdropWhile (fun x => x == '0') (padZeros 6 (natDigits (n % 1000000))) ≠ [] := by
      intro hc
      rw [List.rdropWhile_eq_nil_iff] at hc
      have hall : ∀ c ∈ padZeros 6 (natDigits (n % 1000000)), c = '0' := by
        intro c hcm
        have := hc c hcm
        simpa using this
      have := digitsToNat_all_zero hall
      rw [digitsToNat_padZeros, digitsToNat_natDigits] at this
      exact h this
    have hsplit : natDigits (n / 1000000) ++ '.' :: padZeros 6 (natDigits (n % 1000000)) =
        (natDigits (n / 1000000) ++ ['.']) ++ padZeros 6 (natDigits (n % 1000000)) := by
      simp
    rw [hsplit, rdropWhile_append_of_ne_nil _ _ _ hf]
    have hlast : List.rdropWhile (fun x => x == '.')
        ((natDigits (n / 1000000) ++ ['.']) ++
          List.rdropWhile (fun x => x == '0') (padZeros 6 (natDigits (n % 1000000)))) =
        (natDigits (n / 1000000) ++ ['.']) ++
          List.rdropWhile (fun x => x == '0') (padZeros 6 (natDigits (n % 1000000))) := by
      apply List.rdropWhile_eq_self_iff.mpr
      intro hl
      rw [List.getLast_append_of_ne_nil hf]
      have hmem := List.getLast_mem hf
      have hmemP := mem_of_mem_rdropWhile hmem
      have hdig := padZeros_all_digit 6 _ (natDigits_all_digit (n % 1000000)) _ hmemP
      simpa using digit_ne_dot hdig
    rw [hlast]
    rw [decimalOfScaled]
    have hfrac : stripTrailingZeros (padZeros 6 (natDigits (n % 10 ^ 6))) =
        List.rdropWhile (fun x => x == '0') (padZeros 6 (natDigits (n % 1000000))) := by
      rw [h6]; rfl
    rw [hfrac]
    rw [if_neg (by simpa using hf)]
    rw [String.data_append, String.data_append]
    rw [show (".".data) = ['.'] from by decide]
    simp [h6]

theorem append_dot_inj : ∀ (a b u v : List Char), '.' ∉ a → '.' ∉ b →
    a ++ '.' :: u = b ++ '.' :: v → a = b ∧ u = v := by
  intro a
  induction a with
  | nil =>
    intro b u v _ hb h
    cases b with
    | nil => simpa using h
    | cons c bs =>
      simp only [List.nil_append, List.cons_append, List.cons.injEq] at h
      exact absurd (List.mem_cons.mpr (Or.inl h.1)) hb
  | cons c as ih =>
    intro b u v ha hb h
    cases b with
    | nil =>
      simp only [List.cons_append, List.nil_append, List.cons.injEq] at h
      exact absurd (List.mem_cons.mpr (Or.inl h.1.symm)) ha
    | cons c' bs =>
      simp only [List.cons_append, List.cons.injEq] at h
      obtain ⟨hc, htl⟩ := h
      have := ih bs u v (fun hm => ha (List.mem_cons_of_mem _ hm)) (fun hm => hb (List.mem_cons_of_mem _ hm)) htl
      exact ⟨by rw [hc, this.1], this.2⟩

theorem rdropWhile_append_rtakeWhile {α : Type} (p : α → Bool) (l : List α) :
    List.rdropWhile p l ++ List.rtakeWhile p l = l := by
  rw [List.rdropWhile, List.rtakeWhile, ← List.reverse_append, List.takeWhile_append_dropWhile,
      List.reverse_reverse]

theorem strip_inj_of_length {l1 l2 : List Char} (hlen : l1.length = l2.length)
    (h : stripTrailingZeros l1 = stripTrailingZeros l2) : l1 = l2 := by
  have h1 := rdropWhile_append_rtakeWhile (fun x => x == '0') l1
  have h2 := rdropWhile_append_rtakeWhile (fun x => x == '0') l2
  have hz1 : List.rtakeWhile (fun x => x == '0') l1 =
      List.replicate (List.rtakeWhile (fun x => x == '0') l1).length '0' := by
    rw [List.eq_replicate_iff]
    exact ⟨rfl, fun b hb => by simpa using List.mem_rtakeWhile_imp hb⟩
  have hz2 : List.rtakeWhile (fun x => x == '0') l2 =
      List.replicate (List.rtakeWhile (fun x => x == '0') l2).length '0' := by
    rw [List.eq_replicate_iff]
    exact ⟨rfl, fun b hb => by simpa using List.mem_rtakeWhile_imp hb⟩
  have hs : stripTrailingZeros l1 = List.rdropWhile (fun x => x == '0') l1 := rfl
  have hs2 : stripTrailingZeros l2 = List.rdropWhile (fun x => x == '0') l2 := rfl
  rw [hs, hs2] at h
  have hlen2 : (List.rtakeWhile (fun x => x == '0') l1).length =
      (List.rtakeWhile (fun x => x == '0') l2).length := by
    have e1 := congrArg List.length h1
    have e2 := congrArg List.length h2
    rw [List.length_append] at e1 e2
    rw [h] at e1
    omega
  rw [← h1, ← h2, h, hz1, hz2, hlen2]

theorem convert_price_inj {m n : Nat} (h : convert_price m = convert_price n) : m = n := by
  have h6 : (10 : Nat) ^ 6 = 1000000 := by norm_num
  rw [convert_price_eq_decimal, convert_price_eq_decimal] at h
  have hd := congrArg String.data h
  have hdata : ∀ j : Nat, (decimalOfScaled 6 j).data =
      if (stripTrailingZeros (padZeros 6 (natDigits (j % 10 ^ 6)))).isEmpty then
        natDigits (j / 10 ^ 6)
      else natDigits (j / 10 ^ 6) ++ '.' :: stripTrailingZeros (padZeros 6 (natDigits (j % 10 ^ 6))) := by
    intro j
    rw [decimalOfScaled]
    split
    · rfl
    · rw [String.data_append, String.data_append]
      rw [show (".".data) = ['.'] from by decide]
      simp
  rw [hdata, hdata] at hd
  have hlen : ∀ j : Nat, (padZeros 6 (natDigits (j % 10 ^ 6))).length = 6 := by
    intro j
    exact padZeros_length (natDigits_length_le (Nat.mod_lt _ (by positivity)) (by norm_num))
  have hdig : ∀ j : Nat, '.' ∉ natDigits (j / 10 ^ 6) := by
    intro j hc
    exact digit_ne_dot (natDigits_all_digit _ _ hc) rfl
  have recover : ∀ (a b : Nat), natDigits (a / 10 ^ 6) = natDigits (b / 10 ^ 6) →
      stripTrailingZeros (padZeros 6 (natDigits (a % 10 ^ 6))) =
        stripTrailingZeros (padZeros 6 (natDigits (b % 10 ^ 6))) → a = b := by
    intro a b hD hF
    have hq := natDigits_inj hD
    have hpe := strip_inj_of_length (by rw [hlen a, hlen b]) hF
    have hr : a % 10 ^ 6 = b % 10 ^ 6 := by
      have := congrArg digitsToNat hpe
      rwa [digitsToNat_padZeros, digitsToNat_padZeros, digitsToNat_natDigits,
          digitsToNat_natDigits] at this
    have ha := Nat.div_add_mod a (10 ^ 6)
    have hb := Nat.div_add_mod b (10 ^ 6)
    omega
  split at hd
  · split at hd
    · next he1 he2 =>
      apply recover m n hd
      rw [List.isEmpty_iff] at he1 he2
      rw [he1, he2]
    · next he1 he2 =>
      exfalso
      have : '.' ∈ natDigits (m / 10 ^ 6) := by
        rw [hd]
        simp
      exact hdig m this
  · split at hd
    · next he1 he2 =>
      exfalso
      have : '.' ∈ natDigits (n / 10 ^ 6) := by
        rw [← hd]
        simp
      exact hdig n this
    · next he1 he2 =>
      have := append_dot_inj _ _ _ _ (hdig m) (hdig n) hd
      exact recover m n this.1 this.2

/-- C3 (amended): for every non-negative integer raw price input, the stored price string is the decimal representation of `raw / 1_000_000` (the per-token price), not `raw / 100`, formatted with the minimum number of decimal digits (trailing zeros and any trailing decimal point stripped). -/
theorem C3_amended (raw : Nat) : convert_price raw = decimalOfScaled 6 raw :=
  convert_price_eq_decimal raw

/-- C4: `convert(8900) = "0.0089"`, `convert(1000000) = "1"`, `convert(0) = "0"`; the conversion formats to six fractional digits and then strips trailing zeros and a trailing decimal point (so `"1.000000"` becomes `"1"`); and it is injective on multiples of 100 within the representable range (inputs up to `10^7`). -/
theorem C4_thm :
    convert_price 8900 = "0.0089" ∧ convert_price 1000000 = "1" ∧ convert_price 0 = "0" ∧
      formatSixFrac 1000000 = "1.000000" ∧
      pyRstripChar '.' (pyRstripChar '0' "1.000000") = "1" ∧
      (∀ m n : Nat, m ≤ 10 ^ 7 → n ≤ 10 ^ 7 → 100 ∣ m → 100 ∣ n →
        convert_price m = convert_price n → m = n) := by
  refine ⟨by decide, by decide, by decide, by decide, by decide, ?_⟩
  intro m n _ _ _ _ h
  exact convert_price_inj h

/-- C4 witness: the injectivity conjunct applied at the concrete input 8900. -/
theorem C4_witness : (8900 : Nat) = 8900 :=
  C4_thm.2.2.2.2.2 8900 8900 (by norm_num) (by norm_num) (by norm_num) (by norm_num) rfl

/-! scratch: reconciler machinery part 1 -/

theorem except_bind_ok {ε α β : Type} (a : Except ε α) (f : α → Except ε β) (b : β) :
    (a >>= f) = .ok b ↔ ∃ x, a = .ok x ∧ f x = .ok b := by
  cases a with
  | error e => simp [Bind.bind, Except.bind]
  | ok x => simp [Bind.bind, Except.bind]

theorem foldlM_invariant {α σ : Type} (f : σ → α → Except PyErr σ) (P : List α → σ → Prop)
    (hstep : ∀ done a st st', P done st → f st a = .ok st' → P (done ++ [a]) st') :
    ∀ (l done : List α) (st st' : σ), P done st → l.foldlM f st = .ok st' → P (done ++ l) st' := by
  intro l
  induction l with
  | nil =>
    intro done st st' hP h
    simp only [List.foldlM_nil] at h
    cases h
    simpa using hP
  | cons a as ih =>
    intro done st st' hP h
    rw [List.foldlM_cons, except_bind_ok] at h
    obtain ⟨st1, h1, h2⟩ := h
    have := ih (done ++ [a]) st1 st' (hstep done a st st1 hP h1) h2
    simpa using this

theorem find?_map_replace_self (d : YDict) (k : String) (v : Y)
    (h : ∃ p ∈ d, p.1 = k) :
    List.find? (fun p => decide (p.1 = k)) (d.map (fun p => if p.1 = k then (k, v) else p)) =
      some (k, v) := by
  induction d with
  | nil => simp at h
  | cons q qs ih =>
    simp only [List.map_cons]
    by_cases hq : q.1 = k
    · rw [if_pos hq, List.find?_cons_of_pos _ (by simp)]
    · rw [if_neg hq, List.find?_cons_of_neg _ (by simpa using hq)]
      apply ih
      obtain ⟨p, hp, hpk⟩ := h
      rcases List.mem_cons.mp hp with h1 | hmem
      · exact absurd (h1 ▸ hpk) hq
      · exact ⟨p, hmem, hpk⟩

theorem find?_map_replace_ne (d : YDict) (k k' : String) (v : Y) (h : k' ≠ k) :
    List.find? (fun p => decide (p.1 = k')) (d.map (fun p => if p.1 = k then (k, v) else p)) =
      List.find? (fun p => decide (p.1 = k')) d := by
  induction d with
  | nil => rfl
  | cons q qs ih =>
    simp only [List.map_cons]
    by_cases hq : q.1 = k
    · have hq' : ¬q.1 = k' := by rw [hq]; exact fun hc => h hc.symm
      rw [if_pos hq, List.find?_cons_of_neg _ (by simpa using fun hc => h hc.symm),
          List.find?_cons_of_neg _ (by simpa using hq')]
      exact ih
    · by_cases hq' : q.1 = k'
      · rw [if_neg hq, List.find?_cons_of_pos _ (by simpa using hq'),
            List.find?_cons_of_pos _ (by simpa using hq')]
      · rw [if_neg hq, List.find?_cons_of_neg _ (by simpa using hq'),
            List.find?_cons_of_neg _ (by simpa using hq')]
        exact ih

theorem dictGet_dictSet_self (d : YDict) (k : String) (v : Y) :
    dictGet (dictSet d k v) k = some v := by
  rw [dictSet]
  split
  · next h =>
    rw [List.any_eq_true] at h
    obtain ⟨p, hp, hk⟩ := h
    rw [dictGet, find?_map_replace_self d k v ⟨p, hp, by simpa using hk⟩]
    rfl
  · next h =>
    rw [dictGet, List.find?_append]
    have hnone : List.find? (fun p => decide (p.1 = k)) d = none := by
      rw [List.find?_eq_none]
      intro p hp
      simp only [decide_eq_true_eq]
      intro hc
      exact h (List.any_eq_true.mpr ⟨p, hp, by simpa using hc⟩)
    rw [hnone]
    simp

theorem dictGet_dictSet_ne (d : YDict) (k k' : String) (v : Y) (h : k' ≠ k) :
    dictGet (dictSet d k v) k' = dictGet d k' := by
  rw [dictSet]
  split
  · rw [dictGet, find?_map_replace_ne d k k' v h]
    rfl
  · rw [dictGet, dictGet, List.find?_append]
    cases hfd : List.find? (fun p => decide (p.1 = k')) d with
    | none => simp [List.find?, Ne.symm h]
    | some p => simp

theorem mem_saveFile_iff (dir : DirState) (fn : String) (c : FileContent)
    (fn' : String) (c' : FileContent) :
    (fn', c') ∈ saveFile dir fn c ↔ ((fn', c') ∈ dir ∧ fn' ≠ fn) ∨ (fn' = fn ∧ c' = c) := by
  rw [saveFile]
  split
  · next h =>
    rw [List.any_eq_true] at h
    obtain ⟨p, hp, hk⟩ := h
    rw [List.mem_map]
    constructor
    · rintro ⟨e, he, heq⟩
      by_cases hefn : e.1 = fn
      · rw [if_pos hefn] at heq
        right
        exact ⟨congrArg Prod.fst heq.symm, congrArg Prod.snd heq.symm⟩
      · rw [if_neg hefn] at heq
        left
        subst heq
        exact ⟨he, hefn⟩
    · rintro (⟨hmem, hne⟩ | ⟨rfl, rfl⟩)
      · exact ⟨(fn', c'), hmem, by rw [if_neg hne]⟩
      · exact ⟨p, hp, by rw [if_pos (by simpa using hk)]⟩
  · next h =>
    rw [List.mem_append]
    constructor
    · rintro (hmem | hmem)
      · left
        refine ⟨hmem, ?_⟩
        rintro rfl
        exact h (List.any_eq_true.mpr ⟨(fn', c'), hmem, by simp⟩)
      · right
        simpa using hmem
    · rintro (⟨hmem, _⟩ | ⟨rfl, rfl⟩)
      · exact Or.inl hmem
      · exact Or.inr (by simp)

theorem saveFile_names_mem (dir : DirState) (fn : String) (c : FileContent)
    (h : fn ∈ dir.map Prod.fst) :
    (saveFile dir fn c).map Prod.fst = dir.map Prod.fst := by
  rw [saveFile, if_pos]
  · rw [List.map_map]
    apply List.map_congr_left
    intro e _
    by_cases he : e.1 = fn
    · simp [he, Function.comp]
    · simp [he, Function.comp]
  · rw [List.mem_map] at h
    obtain ⟨e, he, hfn⟩ := h
    exact List.any_eq_true.mpr ⟨e, he, by simpa using hfn⟩

theorem saveFile_names_not_mem (dir : DirState) (fn : String) (c : FileContent)
    (h : fn ∉ dir.map Prod.fst) :
    (saveFile dir fn c).map Prod.fst = dir.map Prod.fst ++ [fn] := by
  rw [saveFile, if_neg]
  · simp
  · intro hc
    rw [List.any_eq_true] at hc
    obtain ⟨e, he, hk⟩ := hc
    exact h (List.mem_map.mpr ⟨e, he, by simpa using hk⟩)

theorem mem_removeFile_iff (dir : DirState) (fn fn' : String) (c' : FileContent) :
    (fn', c') ∈ removeFile dir fn ↔ (fn', c') ∈ dir ∧ fn' ≠ fn := by
  rw [removeFile, List.mem_filter]
  simp

theorem removeFile_names (dir : DirState) (fn : String) :
    (removeFile dir fn).map Prod.fst = (dir.map Prod.fst).filter (fun n => !decide (n = fn)) := by
  induction dir with
  | nil => rfl
  | cons e es ih =>
    rw [removeFile, List.filter_cons, List.map_cons, List.filter_cons]
    by_cases he : e.1 = fn
    · rw [if_neg (by simpa using he), if_neg (by simpa using he)]
      rw [removeFile] at ih
      exact ih
    · rw [if_pos (by simpa using he), if_pos (by simpa using he), List.map_cons]
      rw [removeFile] at ih
      rw [ih]

theorem lookupFile_eq_some_of_mem (dir : DirState) (fn : String) (c : FileContent)
    (hnd : (dir.map Prod.fst).Nodup) (h : (fn, c) ∈ dir) :
    lookupFile dir fn = some c := by
  induction dir with
  | nil => simp at h
  | cons e es ih =>
    rw [lookupFile]
    rcases List.mem_cons.mp h with h1 | h1
    · cases h1.symm
      rw [List.find?_cons_of_pos _ (by simp)]
      rfl
    · have hne : e.1 ≠ fn := by
        intro hc
        rw [List.map_cons, List.nodup_cons] at hnd
        exact hnd.1 (hc ▸ List.mem_map.mpr ⟨(fn, c), h1, rfl⟩)
      rw [List.find?_cons_of_neg _ (by simpa using hne)]
      have := ih (by rw [List.map_cons, List.nodup_cons] at hnd; exact hnd.2) h1
      rw [lookupFile] at this
      exact this

theorem mem_of_lookupFile_eq_some (dir : DirState) (fn : String) (c : FileContent)
    (h : lookupFile dir fn = some c) : (fn, c) ∈ dir := by
  rw [lookupFile] at h
  rcases hf : List.find? (fun e => decide (e.1 = fn)) dir with _ | e
  · rw [hf] at h; cases h
  · rw [hf] at h
    have hmem := List.mem_of_find?_eq_some hf
    have hprop := List.find?_some hf
    simp only [Option.map_some', Option.some.injEq] at h
    simp only [decide_eq_true_eq] at hprop
    have : e = (fn, c) := by
      cases e
      simp_all
    rwa [this] at hmem

theorem regGet_eq_some_mem (ex : List (Y × String)) (k : Y) (fn : String)
    (h : regGet ex k = some fn) : (k, fn) ∈ ex := by
  rw [regGet] at h
  rcases hf : List.find? (fun p => decide (p.1 = k)) ex with _ | p
  · rw [hf] at h; cases h
  · rw [hf] at h
    have hmem := List.mem_of_find?_eq_some hf
    have hprop := List.find?_some hf
    simp only [Option.map_some', Option.some.injEq] at h
    simp only [decide_eq_true_eq] at hprop
    have : p = (k, fn) := by
      cases p
      simp_all
    rwa [this] at hmem

theorem regGet_eq_none_iff (ex : List (Y × String)) (k : Y) :
    regGet ex k = none ↔ ∀ fn, (k, fn) ∉ ex := by
  rw [regGet]
  constructor
  · intro h fn hmem
    rw [Option.map_eq_none', List.find?_eq_none] at h
    exact absurd (by simp : decide ((k, fn).1 = k) = true) (by simpa using h _ hmem)
  · intro h
    rw [Option.map_eq_none', List.find?_eq_none]
    intro p hp
    simp only [decide_eq_true_eq]
    intro hc
    exact h p.2 (by rw [← hc]; exact hp)

theorem itemGetDict_ok_iff (d : YDict) (k : String) (v : Y) :
    itemGetDict d k = .ok v ↔ dictGet d k = some v := by
  rw [itemGetDict]
  cases hd : dictGet d k <;> simp [Pure.pure, Except.pure]

theorem itemSetPath_ok {yd : YDict} {k1 k2 : String} {v : Y} {yd2 : YDict}
    (h : itemSetPath yd k1 k2 v = .ok yd2) :
    ∃ kvs, dictGet yd k1 = some (.dict kvs) ∧
      yd2 = dictSet yd k1 (.dict (dictSet kvs k2 v)) := by
  rw [itemSetPath] at h
  rcases hg : itemGetDict yd k1 with e | inner
  · rw [hg] at h
    simp [Bind.bind, Except.bind] at h
  · rw [hg] at h
    simp only [Bind.bind, Except.bind] at h
    cases inner with
    | dict kvs =>
      simp only [Pure.pure, Except.pure, Except.ok.injEq] at h
      exact ⟨kvs, (itemGetDict_ok_iff _ _ _).mp hg, h.symm⟩
    | null => simp at h
    | int z => simp at h
    | str s => simp at h
    | list xs => simp at h

theorem ySetEq_refl (xs : List Y) : ySetEq xs xs = true := by
  rw [ySetEq]
  have : xs.all (fun x => xs.any fun y => decide (x = y)) = true := by
    rw [List.all_eq_true]
    intro x hx
    rw [List.any_eq_true]
    exact ⟨x, hx, by simp⟩
  rw [this, Bool.true_and, List.all_eq_true]
  intro x hx
  rw [List.any_eq_true]
  exact ⟨x, hx, by simp⟩

theorem map_str_all_hashable (l : List String) : (l.map Y.str).all pyHashable = true := by
  rw [List.all_eq_true]
  intro x hx
  rw [List.mem_map] at hx
  obtain ⟨s, _, rfl⟩ := hx
  rfl

theorem updateContext_ok_char {api : ApiModel} {yd yd' : YDict} {ch : List Change}
    (h : updateContext api yd = .ok (yd', ch)) :
    (∃ r, mappingGet ((dictGet yd' "model_properties").getD (Y.dict [])) "context_size" = .ok r ∧
       pyCtxEq r api.context_size = true) ∧
    (∀ k, k ≠ "model_properties" → dictGet yd' k = dictGet yd k) ∧
    (ch = [] → yd' = yd) := by
  rw [updateContext] at h
  rcases hm : mappingGet ((dictGet yd "model_properties").getD (Y.dict [])) "context_size"
    with e | r
  · rw [hm] at h
    simp [Bind.bind, Except.bind] at h
  · rw [hm] at h
    simp only [Bind.bind, Except.bind] at h
    by_cases hc : pyCtxEq r api.context_size = true
    · rw [if_pos hc] at h
      simp only [Pure.pure, Except.pure, Except.ok.injEq, Prod.mk.injEq] at h
      obtain ⟨h1, _⟩ := h
      subst h1
      exact ⟨⟨r, hm, hc⟩, fun k _ => rfl, fun _ => rfl⟩
    · rw [if_neg hc] at h
      rcases hset : itemSetPath yd "model_properties" "context_size" (encCtx api.context_size)
        with e | yd2
      · rw [hset] at h
        simp [Bind.bind, Except.bind] at h
      · rw [hset] at h
        simp only [Bind.bind, Except.bind, Pure.pure, Except.pure, Except.ok.injEq,
          Prod.mk.injEq] at h
        obtain ⟨h1, h2⟩ := h
        subst h1
        obtain ⟨kvs, hget, hyd2⟩ := itemSetPath_ok hset
        subst hyd2
        refine ⟨?_, ?_, ?_⟩
        · rw [dictGet_dictSet_self]
          cases hacs : api.context_size with
          | none =>
            refine ⟨none, ?_, rfl⟩
            simp [mappingGet, dictGet_dictSet_self, encCtx, hacs, Pure.pure, Except.pure]
          | some cnum =>
            refine ⟨some (Y.int (Int.ofNat cnum)), ?_, by simp [pyCtxEq]⟩
            simp [mappingGet, dictGet_dictSet_self, encCtx, hacs, Pure.pure, Except.pure]
        · intro k hk
          exact dictGet_dictSet_ne _ _ _ _ hk
        · intro hch
          rw [← h2] at hch
          cases hch

theorem itemGetY_ok_dict {p : Y} {k : String} {v : Y} (h : itemGetY p k = .ok v) :
    ∃ pkvs, p = .dict pkvs ∧ dictGet pkvs k = some v := by
  cases p with
  | dict pkvs => exact ⟨pkvs, rfl, (itemGetDict_ok_iff _ _ _).mp h⟩
  | null => simp [itemGetY] at h
  | int z => simp [itemGetY] at h
  | str s => simp [itemGetY] at h
  | list xs => simp [itemGetY] at h

theorem updatePricing_ok_char {api : ApiModel} {yd yd' : YDict} {ch : List Change}
    (h : updatePricing api yd = .ok (yd', ch)) :
    (∃ p, itemGetDict yd' "pricing" = .ok p ∧
       itemGetY p "input" = .ok (.str (convert_price (api.input_token_price_per_m.getD 0))) ∧
       itemGetY p "output" = .ok (.str (convert_price (api.output_token_price_per_m.getD 0)))) ∧
    (∀ k, k ≠ "pricing" → dictGet yd' k = dictGet yd k) ∧
    (ch = [] → yd' = yd) := by
  rw [updatePricing] at h
  rcases hp : itemGetDict yd "pricing" with e | p
  · rw [hp] at h
    simp [Bind.bind, Except.bind] at h
  · rw [hp] at h
    simp only [Bind.bind, Except.bind] at h
    rcases hin : itemGetY p "input" with e | yin
    · rw [hin] at h
      simp [Except.bind] at h
    · rw [hin] at h
      simp only [Except.bind] at h
      obtain ⟨pkvs, rfl, hinv⟩ := itemGetY_ok_dict hin
      by_cases hc1 : yin = Y.str (convert_price (api.input_token_price_per_m.getD 0))
      · rw [if_pos (by simpa using hc1)] at h
        simp only [Pure.pure, Except.pure, Except.bind] at h
        rw [hp] at h
        simp only [Except.bind] at h
        rcases hout : itemGetY (Y.dict pkvs) "output" with e | yout
        · rw [hout] at h
          simp [Except.bind] at h
        · rw [hout] at h
          simp only [Except.bind] at h
          have houtv : dictGet pkvs "output" = some yout :=
            (itemGetDict_ok_iff _ _ _).mp hout
          by_cases hc2 : yout = Y.str (convert_price (api.output_token_price_per_m.getD 0))
          · rw [if_pos (by simpa using hc2)] at h
            simp only [Pure.pure, Except.pure, Except.ok.injEq, Prod.mk.injEq] at h
            obtain ⟨h1, _⟩ := h
            subst h1
            subst hc1
            subst hc2
            exact ⟨⟨Y.dict pkvs, hp, hin, hout⟩, fun k _ => rfl, fun _ => rfl⟩
          · rw [if_neg (by simpa using hc2)] at h
            rcases hset : itemSetPath yd "pricing" "output"
                (Y.str (convert_price (api.output_token_price_per_m.getD 0))) with e | yd2
            · rw [hset] at h
              simp [Except.bind] at h
            · rw [hset] at h
              simp only [Except.bind, Pure.pure, Except.pure, Except.ok.injEq,
                Prod.mk.injEq] at h
              obtain ⟨h1, h2⟩ := h
              subst h1
              obtain ⟨kvs2, hget2, hyd2⟩ := itemSetPath_ok hset
              have hkvs2 : kvs2 = pkvs := by
                rw [(itemGetDict_ok_iff _ _ _).mp hp] at hget2
                injection hget2 with hh
                injection hh with hh2
                exact hh2.symm
              rw [hkvs2] at hyd2
              subst hyd2
              refine ⟨?_, ?_, ?_⟩
              · refine ⟨Y.dict (dictSet pkvs "output"
                  (Y.str (convert_price (api.output_token_price_per_m.getD 0)))), ?_, ?_, ?_⟩
                · rw [itemGetDict_ok_iff, dictGet_dictSet_self]
                · rw [itemGetY, itemGetDict_ok_iff, dictGet_dictSet_ne _ _ _ _ (by decide)]
                  rw [hinv, hc1]
                · rw [itemGetY, itemGetDict_ok_iff, dictGet_dictSet_self]
              · intro k hk
                exact dictGet_dictSet_ne _ _ _ _ hk
              · intro hch
                rw [← h2] at hch
                cases hch
      · rw [if_neg (by simpa using hc1)] at h
        rcases hset : itemSetPath yd "pricing" "input"
            (Y.str (convert_price (api.input_token_price_per_m.getD 0))) with e | yd1
        · rw [hset] at h
          simp [Except.bind] at h
        · rw [hset] at h
          simp only [Except.bind] at h
          obtain ⟨kvs1, hget1, hyd1⟩ := itemSetPath_ok hset
          have hkvs1 : kvs1 = pkvs := by
            rw [(itemGetDict_ok_iff _ _ _).mp hp] at hget1
            injection hget1 with hh
            injection hh with hh2
            exact hh2.symm
          rw [hkvs1] at hyd1
          have hp2 : itemGetDict yd1 "pricing" = .ok (Y.dict (dictSet pkvs "input"
              (Y.str (convert_price (api.input_token_price_per_m.getD 0))))) := by
            rw [hyd1, itemGetDict_ok_iff, dictGet_dictSet_self]
          simp only [Pure.pure, Except.pure] at h
          rw [hp2] at h
          simp only [Except.bind] at h
          rcases hout : itemGetY (Y.dict (dictSet pkvs "input"
              (Y.str (convert_price (api.input_token_price_per_m.getD 0))))) "output"
            with e | yout
          · rw [hout] at h
            simp [Except.bind] at h
          · rw [hout] at h
            simp only [Except.bind] at h
            have houtv : dictGet pkvs "output" = some yout := by
              have hv : dictGet (dictSet pkvs "input"
                  (Y.str (convert_price (api.input_token_price_per_m.getD 0)))) "output" =
                  some yout := (itemGetDict_ok_iff _ _ _).mp hout
              rwa [dictGet_dictSet_ne _ _ _ _ (by decide)] at hv
            by_cases hc2 : yout = Y.str (convert_price (api.output_token_price_per_m.getD 0))
            · rw [if_pos (by simpa using hc2)] at h
              simp only [Pure.pure, Except.pure, Except.ok.injEq, Prod.mk.injEq] at h
              obtain ⟨h1, h2⟩ := h
              subst h1
              refine ⟨?_, ?_, ?_⟩
              · refine ⟨Y.dict (dictSet pkvs "input"
                  (Y.str (convert_price (api.input_token_price_per_m.getD 0)))), ?_, ?_, ?_⟩
                · rw [hyd1, itemGetDict_ok_iff, dictGet_dictSet_self]
                · rw [itemGetY, itemGetDict_ok_iff, dictGet_dictSet_self]
                · rw [itemGetY, itemGetDict_ok_iff, dictGet_dictSet_ne _ _ _ _ (by decide)]
                  rw [hc2] at houtv
                  rw [houtv]
              · intro k hk
                rw [hyd1]
                exact dictGet_dictSet_ne _ _ _ _ hk
              · intro hch
                rw [← h2] at hch
                cases hch
            · rw [if_neg (by simpa using hc2)] at h
              rcases hset2 : itemSetPath yd1 "pricing" "output"
                  (Y.str (convert_price (api.output_token_price_per_m.getD 0))) with e | yd2
              · rw [hset2] at h
                simp [Except.bind] at h
              · rw [hset2] at h
                simp only [Except.bind, Pure.pure, Except.pure, Except.ok.injEq,
                  Prod.mk.injEq] at h
                obtain ⟨h1, h2⟩ := h
                subst h1
                obtain ⟨kvs2, hget2, hyd2⟩ := itemSetPath_ok hset2
                have hkvs2 : kvs2 = dictSet pkvs "input"
                    (Y.str (convert_price (api.input_token_price_per_m.getD 0))) := by
                  rw [(itemGetDict_ok_iff _ _ _).mp hp2] at hget2
                  injection hget2 with hh
                  injection hh with hh2
                  exact hh2.symm
                rw [hkvs2] at hyd2
                subst hyd2
                refine ⟨?_, ?_, ?_⟩
                · refine ⟨Y.dict (dictSet (dictSet pkvs "input"
                    (Y.str (convert_price (api.input_token_price_per_m.getD 0)))) "output"
                    (Y.str (convert_price (api.output_token_price_per_m.getD 0)))), ?_, ?_, ?_⟩
                  · rw [itemGetDict_ok_iff, dictGet_dictSet_self]
                  · rw [itemGetY, itemGetDict_ok_iff, dictGet_dictSet_ne _ _ _ _ (by decide),
                        dictGet_dictSet_self]
                  · rw [itemGetY, itemGetDict_ok_iff, dictGet_dictSet_self]
                · intro k hk
                  rw [hyd1, dictGet_dictSet_ne _ _ _ _ hk, dictGet_dictSet_ne _ _ _ _ hk]
                · intro hch
                  rw [← h2] at hch
                  cases hch

theorem updateLabels_ok_char {api : ApiModel} {yd yd' : YDict} {ch : List Change}
    (h : updateLabels api yd = .ok (yd', ch)) :
    (∃ l, itemGetDict yd' "label" = .ok l ∧
       itemGetY l "zh_Hans" = .ok (.str (apiTitle api)) ∧
       itemGetY l "en_US" = .ok (.str (apiTitle api))) ∧
    (∀ k, k ≠ "label" → dictGet yd' k = dictGet yd k) ∧
    (ch = [] → yd' = yd) := by
  rw [updateLabels] at h
  rcases hl : itemGetDict yd "label" with e | l
  · rw [hl] at h
    simp [Bind.bind, Except.bind] at h
  · rw [hl] at h
    simp only [Bind.bind, Except.bind] at h
    rcases hzh : itemGetY l "zh_Hans" with e | zh
    · rw [hzh] at h
      simp [Except.bind] at h
    · rw [hzh] at h
      simp only [Except.bind] at h
      rcases hen : itemGetY l "en_US" with e | en
      · rw [hen] at h
        simp [Except.bind] at h
      · rw [hen] at h
        simp only [Except.bind] at h
        obtain ⟨lkvs, rfl, hzhv⟩ := itemGetY_ok_dict hzh
        have henv : dictGet lkvs "en_US" = some en := (itemGetDict_ok_iff _ _ _).mp hen
        by_cases hc : zh = Y.str (apiTitle api) ∧ en = Y.str (apiTitle api)
        · rw [if_pos (by simp [hc.1, hc.2])] at h
          simp only [Pure.pure, Except.pure, Except.ok.injEq, Prod.mk.injEq] at h
          obtain ⟨h1, _⟩ := h
          subst h1
          refine ⟨⟨Y.dict lkvs, hl, ?_, ?_⟩, fun k _ => rfl, fun _ => rfl⟩
          · rw [← hc.1]; exact hzh
          · rw [← hc.2]; exact hen
        · rw [if_neg (by
            rw [Bool.and_eq_true, decide_eq_true_eq, decide_eq_true_eq]
            exact fun hcc => hc hcc)] at h
          rcases hset1 : itemSetPath yd "label" "zh_Hans" (Y.str (apiTitle api)) with e | yd1
          · rw [hset1] at h
            simp [Except.bind] at h
          · rw [hset1] at h
            simp only [Except.bind] at h
            obtain ⟨kvs1, hget1, hyd1⟩ := itemSetPath_ok hset1
            have hkvs1 : kvs1 = lkvs := by
              rw [(itemGetDict_ok_iff _ _ _).mp hl] at hget1
              injection hget1 with hh
              injection hh with hh2
              exact hh2.symm
            rw [hkvs1] at hyd1
            rcases hset2 : itemSetPath yd1 "label" "en_US" (Y.str (apiTitle api)) with e | yd2
            · rw [hset2] at h
              simp [Except.bind] at h
            · rw [hset2] at h
              simp only [Except.bind, Pure.pure, Except.pure, Except.ok.injEq,
                Prod.mk.injEq] at h
              obtain ⟨h1, h2⟩ := h
              subst h1
              obtain ⟨kvs2, hget2, hyd2⟩ := itemSetPath_ok hset2
              have hkvs2 : kvs2 = dictSet lkvs "zh_Hans" (Y.str (apiTitle api)) := by
                rw [hyd1, dictGet_dictSet_self] at hget2
                injection hget2 with hh
                injection hh with hh2
                exact hh2.symm
              rw [hkvs2] at hyd2
              subst hyd2
              refine ⟨?_, ?_, ?_⟩
              · refine ⟨Y.dict (dictSet (dictSet lkvs "zh_Hans" (Y.str (apiTitle api)))
                  "en_US" (Y.str (apiTitle api))), ?_, ?_, ?_⟩
                · rw [itemGetDict_ok_iff, dictGet_dictSet_self]
                · rw [itemGetY, itemGetDict_ok_iff, dictGet_dictSet_ne _ _ _ _ (by decide),
                      dictGet_dictSet_self]
                · rw [itemGetY, itemGetDict_ok_iff, dictGet_dictSet_self]
              · intro k hk
                rw [hyd1, dictGet_dictSet_ne _ _ _ _ hk, dictGet_dictSet_ne _ _ _ _ hk]
              · intro hch
                rw [← h2] at hch
                cases hch

theorem updateFeatures_ok_char {api : ApiModel} {yd yd' : YDict} {ch : List Change}
    (h : updateFeatures api yd = .ok (yd', ch)) :
    (∃ ys, pyIterSet ((dictGet yd' "features").getD (Y.list [])) = .ok ys ∧
       ySetEq ys ((determine_model_features api).map Y.str) = true) ∧
    (∀ k, k ≠ "features" → dictGet yd' k = dictGet yd k) ∧
    (ch = [] → yd' = yd) := by
  rw [updateFeatures] at h
  rcases hs : pyIterSet ((dictGet yd "features").getD (Y.list [])) with e | ys
  · rw [hs] at h
    simp [Bind.bind, Except.bind] at h
  · rw [hs] at h
    simp only [Bind.bind, Except.bind] at h
    by_cases hc : ySetEq ys ((determine_model_features api).map Y.str) = true
    · rw [if_pos hc] at h
      simp only [Pure.pure, Except.pure, Except.ok.injEq, Prod.mk.injEq] at h
      obtain ⟨h1, _⟩ := h
      subst h1
      exact ⟨⟨ys, hs, hc⟩, fun k _ => rfl, fun _ => rfl⟩
    · rw [if_neg hc] at h
      simp only [Pure.pure, Except.pure, Except.ok.injEq, Prod.mk.injEq] at h
      obtain ⟨h1, h2⟩ := h
      subst h1
      refine ⟨?_, ?_, ?_⟩
      · refine ⟨(determine_model_features api).map Y.str, ?_, ySetEq_refl _⟩
        rw [dictGet_dictSet_self]
        simp only [Option.getD_some]
        rw [pyIterSet]
        rw [map_str_all_hashable]
        rfl
      · intro k hk
        exact dictGet_dictSet_ne _ _ _ _ hk
      · intro hch
        rw [← h2] at hch
        cases hch

theorem itemGetDict_congr {d1 d2 : YDict} {k : String} (h : dictGet d1 k = dictGet d2 k) :
    itemGetDict d1 k = itemGetDict d2 k := by
  rw [itemGetDict, itemGetDict, h]

theorem updateDoc_ok_char {api : ApiModel} {yd yd' : YDict} {ch : List Change}
    (h : updateDoc api yd = .ok (yd', ch)) :
    FieldsDerived api yd' ∧ (ch = [] → yd' = yd) ∧
      dictGet yd' "model" = dictGet yd "model" := by
  rw [updateDoc] at h
  rcases h1 : updateContext api yd with e | r1
  · rw [h1] at h
    simp [Bind.bind, Except.bind] at h
  · rw [h1] at h
    simp only [Bind.bind, Except.bind] at h
    rcases h2 : updatePricing api r1.1 with e | r2
    · rw [h2] at h
      simp [Except.bind] at h
    · rw [h2] at h
      simp only [Except.bind] at h
      rcases h3 : updateLabels api r2.1 with e | r3
      · rw [h3] at h
        simp [Except.bind] at h
      · rw [h3] at h
        simp only [Except.bind] at h
        rcases h4 : updateFeatures api r3.1 with e | r4
        · rw [h4] at h
          simp [Except.bind] at h
        · rw [h4] at h
          simp only [Except.bind, Pure.pure, Except.pure, Except.ok.injEq,
            Prod.mk.injEq] at h
          obtain ⟨hyd, hch⟩ := h
          obtain ⟨c1, f1, n1⟩ := updateContext_ok_char (r1.eta ▸ h1)
          obtain ⟨c2, f2, n2⟩ := updatePricing_ok_char (r2.eta ▸ h2)
          obtain ⟨c3, f3, n3⟩ := updateLabels_ok_char (r3.eta ▸ h3)
          obtain ⟨c4, f4, n4⟩ := updateFeatures_ok_char (r4.eta ▸ h4)
          subst hyd
          refine ⟨⟨?_, ?_, ?_, ?_⟩, ?_, ?_⟩
          · -- context component transported through steps 2-4
            have e2 := f2 "model_properties" (by decide)
            have e3 := f3 "model_properties" (by decide)
            have e4 := f4 "model_properties" (by decide)
            rw [e4, e3, e2]
            exact c1
          · -- pricing component transported through 3-4
            obtain ⟨p, hp, hi, ho⟩ := c2
            refine ⟨p, ?_, hi, ho⟩
            have e24 : dictGet r4.1 "pricing" = dictGet r2.1 "pricing" := by
              rw [f4 "pricing" (by decide), f3 "pricing" (by decide)]
            rw [itemGetDict_congr e24]
            exact hp
          · -- label component transported through 4
            obtain ⟨l, hl, hz, he⟩ := c3
            refine ⟨l, ?_, hz, he⟩
            have e34 : dictGet r4.1 "label" = dictGet r3.1 "label" := f4 "label" (by decide)
            rw [itemGetDict_congr e34]
            exact hl
          · exact c4
          · intro hchnil
            rw [← hch] at hchnil
            simp only [List.append_eq_nil] at hchnil
            obtain ⟨⟨⟨e1, e2⟩, e3⟩, e4⟩ := hchnil
            rw [n4 e4, n3 e3, n2 e2, n1 e1]
          · rw [f4 "model" (by decide), f3 "model" (by decide), f2 "model" (by decide),
                f1 "model" (by decide)]

theorem updateContext_fixpoint {api : ApiModel} {yd : YDict}
    (h : ∃ r, mappingGet ((dictGet yd "model_properties").getD (Y.dict [])) "context_size" = .ok r ∧
      pyCtxEq r api.context_size = true) :
    updateContext api yd = .ok (yd, []) := by
  obtain ⟨r, hr, hc⟩ := h
  rw [updateContext, hr]
  simp only [Bind.bind, Except.bind, hc, if_pos]
  rfl

theorem updatePricing_fixpoint {api : ApiModel} {yd : YDict}
    (h : ∃ p, itemGetDict yd "pricing" = .ok p ∧
       itemGetY p "input" = .ok (.str (convert_price (api.input_token_price_per_m.getD 0))) ∧
       itemGetY p "output" = .ok (.str (convert_price (api.output_token_price_per_m.getD 0)))) :
    updatePricing api yd = .ok (yd, []) := by
  obtain ⟨p, hp, hi, ho⟩ := h
  rw [updatePricing, hp]
  simp only [Bind.bind, Except.bind]
  rw [hi]
  simp only [Except.bind]
  rw [if_pos (by simp)]
  simp only [Pure.pure, Except.pure, Except.bind]
  rw [hp]
  simp only [Except.bind]
  rw [ho]
  simp only [Except.bind]
  rw [if_pos (by simp)]

theorem updateLabels_fixpoint {api : ApiModel} {yd : YDict}
    (h : ∃ l, itemGetDict yd "label" = .ok l ∧
       itemGetY l "zh_Hans" = .ok (.str (apiTitle api)) ∧
       itemGetY l "en_US" = .ok (.str (apiTitle api))) :
    updateLabels api yd = .ok (yd, []) := by
  obtain ⟨l, hl, hz, he⟩ := h
  rw [updateLabels, hl]
  simp only [Bind.bind, Except.bind]
  rw [hz]
  simp only [Except.bind]
  rw [he]
  simp only [Except.bind]
  rw [if_pos (by simp)]
  rfl

theorem updateFeatures_fixpoint {api : ApiModel} {yd : YDict}
    (h : ∃ ys, pyIterSet ((dictGet yd "features").getD (Y.list [])) = .ok ys ∧
       ySetEq ys ((determine_model_features api).map Y.str) = true) :
    updateFeatures api yd = .ok (yd, []) := by
  obtain ⟨ys, hys, hseq⟩ := h
  rw [updateFeatures, hys]
  simp only [Bind.bind, Except.bind, hseq, if_pos]
  rfl

theorem updateDoc_fixpoint {api : ApiModel} {yd : YDict} (h : FieldsDerived api yd) :
    updateDoc api yd = .ok (yd, []) := by
  obtain ⟨hc, hp, hl, hf⟩ := h
  rw [updateDoc, updateContext_fixpoint hc]
  simp only [Bind.bind, Except.bind]
  rw [updatePricing_fixpoint hp]
  simp only [Except.bind]
  rw [updateLabels_fixpoint hl]
  simp only [Except.bind]
  rw [updateFeatures_fixpoint hf]
  simp only [Except.bind]
  rfl

theorem template_ok_char {mid : String} {api : ApiModel} {d : YDict}
    (h : create_yaml_template mid api = .ok d) :
    FieldsDerived api d ∧ dictGet d "model" = some (.str mid) := by
  obtain ⟨id, dn, cs, ip, op, fs, desc⟩ := api
  cases cs with
  | none =>
    rw [create_yaml_template] at h
    simp [Bind.bind, Except.bind, Pure.pure, Except.pure, throw, throwThe, MonadExceptOf.throw] at h
  | some c =>
    cases ip with
    | none =>
      rw [create_yaml_template] at h
      simp [Bind.bind, Except.bind, Pure.pure, Except.pure, throw, throwThe, MonadExceptOf.throw] at h
    | some ipv =>
      cases op with
      | none =>
        rw [create_yaml_template] at h
        simp [Bind.bind, Except.bind, Pure.pure, Except.pure, throw, throwThe, MonadExceptOf.throw] at h
      | some opv =>
        rw [create_yaml_template] at h
        simp only [Bind.bind, Except.bind, Pure.pure, Except.pure, Except.ok.injEq] at h
        subst h
        refine ⟨⟨?_, ?_, ?_, ?_⟩, ?_⟩
        · refine ⟨some (Y.int (Int.ofNat c)), by rfl, by simp [pyCtxEq]⟩
        · exact ⟨Y.dict [("input", .str (convert_price ipv)),
            ("output", .str (convert_price opv)), ("unit", .str "0.0001"),
            ("currency", .str "CNY")], by rfl, by rfl, by rfl⟩
        · exact ⟨Y.dict [("zh_Hans", .str (apiTitle ⟨id, dn, some c, some ipv, some opv, fs, desc⟩)),
            ("en_US", .str (apiTitle ⟨id, dn, some c, some ipv, some opv, fs, desc⟩))],
            by rfl, by rfl, by rfl⟩
        · refine ⟨(determine_model_features ⟨id, dn, some c, some ipv, some opv, fs, desc⟩).map Y.str,
            ?_, ySetEq_refl _⟩
          show pyIterSet (Y.list ((determine_model_features
            ⟨id, dn, some c, some ipv, some opv, fs, desc⟩).map Y.str)) = _
          simp only [pyIterSet]
          rw [map_str_all_hashable]
          rfl
        · rfl

theorem scanStep_eq (ex : List (Y × String)) (entry : String × FileContent) :
    scanStep ex entry =
      match fileReg entry with
      | none => .ok ex
      | some (v, fn) =>
        if pyHashable v then .ok (regSet ex v fn) else .error PyErr.typeError := by
  rw [scanStep, fileReg]
  by_cases h1 : (!strEndsWith entry.1 ".yaml" || entry.1 = "check_yaml_consistency.py"
      || entry.1 = "fix_yaml_files.py" : Bool) = true
  · rw [if_pos h1, if_pos h1]
    rfl
  · rw [if_neg h1, if_neg h1]
    by_cases h2 : (load_yaml_file (some entry.2)).isEmpty = true
    · rw [if_pos h2, if_pos h2]
      rfl
    · rw [if_neg h2, if_neg h2]
      rcases h3 : dictGet (load_yaml_file (some entry.2)) "model" with _ | v
      · rfl
      · by_cases h4 : pyTruthy v = true
        · by_cases h5 : pyHashable v = true
          · simp [h4, h5, Pure.pure, Except.pure]
          · simp [h4, h5, throw, throwThe, MonadExceptOf.throw]
        · simp [h4, Pure.pure, Except.pure]

theorem fileReg_some_char {entry : String × FileContent} {v : Y} {fn : String}
    (h : fileReg entry = some (v, fn)) :
    fn = entry.1 ∧ strEndsWith entry.1 ".yaml" = true ∧
      ∃ d, entry.2 = FileContent.yamlDoc d ∧ d ≠ [] ∧
        dictGet d "model" = some v ∧ pyTruthy v = true := by
  rw [fileReg] at h
  by_cases h1 : (!strEndsWith entry.1 ".yaml" || entry.1 = "check_yaml_consistency.py"
      || entry.1 = "fix_yaml_files.py" : Bool) = true
  · rw [if_pos h1] at h
    cases h
  · rw [if_neg h1] at h
    have hya : strEndsWith entry.1 ".yaml" = true := by
      rcases hy : strEndsWith entry.1 ".yaml" with _ | _
      · exact absurd (by rw [Bool.or_eq_true, Bool.or_eq_true]; left; left; simp [hy]) h1
      · rfl
    by_cases h2 : (load_yaml_file (some entry.2)).isEmpty = true
    · rw [if_pos h2] at h
      cases h
    · rw [if_neg h2] at h
      rcases h3 : dictGet (load_yaml_file (some entry.2)) "model" with _ | w
      · rw [h3] at h
        cases h
      · rw [h3] at h
        by_cases h4 : pyTruthy w = true
        · simp only [h4, if_true, Option.some.injEq, Prod.mk.injEq] at h
          obtain ⟨hv, hfn⟩ := h
          subst hv
          subst hfn
          refine ⟨rfl, hya, ?_⟩
          cases hc : entry.2 with
          | nonMapping s =>
            rw [hc] at h2
            simp [load_yaml_file] at h2
          | yamlDoc d =>
            rw [hc] at h2 h3
            refine ⟨d, rfl, ?_, h3, h4⟩
            intro hnil
            rw [hnil] at h2
            simp [load_yaml_file] at h2
        · simp only [h4, if_false, Bool.false_eq_true] at h
          cases h

theorem fileReg_yamlDoc (fn : String) (d : YDict) (v : Y)
    (hyaml : strEndsWith fn ".yaml" = true)
    (hmodel : dictGet d "model" = some v) (htruthy : pyTruthy v = true) :
    fileReg (fn, FileContent.yamlDoc d) = some (v, fn) := by
  have hnc : fn ≠ "check_yaml_consistency.py" := by
    rintro rfl
    rw [show strEndsWith "check_yaml_consistency.py" ".yaml" = false from by decide] at hyaml
    cases hyaml
  have hnf : fn ≠ "fix_yaml_files.py" := by
    rintro rfl
    rw [show strEndsWith "fix_yaml_files.py" ".yaml" = false from by decide] at hyaml
    cases hyaml
  rw [fileReg]
  rw [if_neg (by simp [hyaml, hnc, hnf])]
  have hne : d ≠ [] := by
    rintro rfl
    rw [dictGet] at hmodel
    simp at hmodel
  rw [if_neg (by simpa [load_yaml_file] using hne)]
  simp only [load_yaml_file]
  rw [hmodel]
  simp only [htruthy, if_true]

theorem regSet_append_of_fresh {ex : List (Y × String)} {v : Y} {fn : String}
    (h : ∀ p ∈ ex, ¬p.1 = v) : regSet ex v fn = ex ++ [(v, fn)] := by
  rw [regSet, if_neg]
  intro hc
  rw [List.any_eq_true] at hc
  obtain ⟨p, hp, hpv⟩ := hc
  exact h p hp (by simpa using hpv)

theorem registrations_cons_none {e : String × FileContent} (dir : DirState)
    (h : fileReg e = none) : registrations (e :: dir) = registrations dir := by
  rw [registrations, List.filterMap_cons, h]
  rfl

theorem registrations_cons_some {e : String × FileContent} {q : Y × String} (dir : DirState)
    (h : fileReg e = some q) : registrations (e :: dir) = q :: registrations dir := by
  rw [registrations, List.filterMap_cons, h]
  rfl

theorem scan_fold_ok : ∀ (dir : DirState) (ex0 ex : List (Y × String)),
    dir.foldlM scanStep ex0 = .ok ex →
    ((registrations dir).map Prod.fst).Nodup →
    (∀ p ∈ ex0, ∀ q ∈ registrations dir, ¬p.1 = q.1) →
    ex = ex0 ++ registrations dir := by
  intro dir
  induction dir with
  | nil =>
    intro ex0 ex h _ _
    simp only [List.foldlM_nil] at h
    cases h
    simp [registrations]
  | cons e es ih =>
    intro ex0 ex h hnodup hfresh
    rw [List.foldlM_cons, except_bind_ok] at h
    obtain ⟨ex1, h1, h2⟩ := h
    rw [scanStep_eq] at h1
    rcases hfr : fileReg e with _ | q
    · rw [hfr] at h1
      cases h1
      rw [registrations_cons_none es hfr]
      rw [registrations_cons_none es hfr] at hnodup hfresh
      exact ih ex0 ex h2 hnodup hfresh
    · rw [hfr] at h1
      obtain ⟨v, fn⟩ := q
      rw [registrations_cons_some es hfr] at hnodup hfresh ⊢
      by_cases hh : pyHashable v = true
      · simp only [hh, if_true, Except.ok.injEq] at h1
        have hfreshv : ∀ p ∈ ex0, ¬p.1 = v := by
          intro p hp
          exact hfresh p hp (v, fn) (List.mem_cons_self _ _)
        have hex1 : ex1 = ex0 ++ [(v, fn)] := by
          rw [← h1, regSet_append_of_fresh hfreshv]
        subst hex1
        rw [List.map_cons, List.nodup_cons] at hnodup
        have := ih (ex0 ++ [(v, fn)]) ex h2 hnodup.2 ?_
        · rw [this, List.append_assoc]
          rfl
        · intro p hp q hq
          rcases List.mem_append.mp hp with hp1 | hp1
          · exact hfresh p hp1 q (List.mem_cons_of_mem _ hq)
          · rw [List.mem_singleton] at hp1
            subst hp1
            simp only
            intro hc
            exact hnodup.1 (hc ▸ List.mem_map.mpr ⟨q, hq, rfl⟩)
      · simp only [hh, if_false, Bool.false_eq_true] at h1
        cases h1

theorem scan_fold_total : ∀ (dir : DirState) (ex0 : List (Y × String)),
    ((registrations dir).map Prod.fst).Nodup →
    (∀ p ∈ ex0, ∀ q ∈ registrations dir, ¬p.1 = q.1) →
    (∀ q ∈ registrations dir, pyHashable q.1 = true) →
    dir.foldlM scanStep ex0 = .ok (ex0 ++ registrations dir) := by
  intro dir
  induction dir with
  | nil =>
    intro ex0 _ _ _
    simp [registrations, Pure.pure, Except.pure]
  | cons e es ih =>
    intro ex0 hnodup hfresh hhash
    rw [List.foldlM_cons]
    rw [scanStep_eq]
    rcases hfr : fileReg e with _ | q
    · rw [registrations_cons_none es hfr] at hnodup hfresh hhash ⊢
      exact ih ex0 hnodup hfresh hhash
    · obtain ⟨v, fn⟩ := q
      rw [registrations_cons_some es hfr] at hnodup hfresh hhash ⊢
      simp only [hhash (v, fn) (List.mem_cons_self _ _), if_true]
      have hfreshv : ∀ p ∈ ex0, ¬p.1 = v := by
        intro p hp
        exact hfresh p hp (v, fn) (List.mem_cons_self _ _)
      rw [regSet_append_of_fresh hfreshv]
      rw [List.map_cons, List.nodup_cons] at hnodup
      show (es.foldlM scanStep (ex0 ++ [(v, fn)])) = _
      rw [ih (ex0 ++ [(v, fn)]) hnodup.2 ?_ (fun q hq => hhash q (List.mem_cons_of_mem _ hq))]
      · rw [List.append_assoc]
        rfl
      · intro p hp q hq
        rcases List.mem_append.mp hp with hp1 | hp1
        · exact hfresh p hp1 q (List.mem_cons_of_mem _ hq)
        · rw [List.mem_singleton] at hp1
          subst hp1
          simp only
          intro hc
          exact hnodup.1 (hc ▸ List.mem_map.mpr ⟨q, hq, rfl⟩)

theorem registrations_snd_sublist (dir : DirState) :
    ((registrations dir).map Prod.snd).Sublist (dir.map Prod.fst) := by
  induction dir with
  | nil => simp [registrations]
  | cons e es ih =>
    rcases hfr : fileReg e with _ | q
    · rw [registrations_cons_none es hfr]
      exact ih.cons _
    · rw [registrations_cons_some es hfr]
      obtain ⟨hfn, _⟩ := fileReg_some_char hfr
      rw [List.map_cons, List.map_cons, hfn]
      exact ih.cons₂ _

theorem mem_registrations_char {dir : DirState} {q : Y × String}
    (h : q ∈ registrations dir) :
    strEndsWith q.2 ".yaml" = true ∧
      ∃ d, (q.2, FileContent.yamlDoc d) ∈ dir ∧ d ≠ [] ∧
        dictGet d "model" = some q.1 ∧ pyTruthy q.1 = true := by
  rw [registrations] at h
  rw [List.mem_filterMap] at h
  obtain ⟨entry, hmem, hfr⟩ := h
  obtain ⟨v, fn⟩ := q
  obtain ⟨hfn, hyaml, d, hdoc, hne, hmodel, htruthy⟩ := fileReg_some_char hfr
  subst hfn
  exact ⟨hyaml, d, by rwa [← hdoc], hne, hmodel, htruthy⟩

theorem buildApiDict_step_names (acc : List (String × ApiModel)) (m : ApiModel) :
    ((if acc.any (fun p => decide (p.1 = m.id)) then
        acc.map (fun p => if p.1 = m.id then (m.id, m) else p)
      else acc ++ [(m.id, m)]).map Prod.fst) =
      (if acc.any (fun p => decide (p.1 = m.id)) then acc.map Prod.fst
       else acc.map Prod.fst ++ [m.id]) := by
  split
  · rw [List.map_map]
    apply List.map_congr_left
    intro p _
    by_cases hp : p.1 = m.id
    · simp [hp, Function.comp]
    · simp [hp, Function.comp]
  · simp

theorem buildApiDict_fold_nodup : ∀ (ms : List ApiModel) (acc : List (String × ApiModel)),
    (acc.map Prod.fst).Nodup →
    ((ms.foldl (fun d m =>
      if d.any (fun p => decide (p.1 = m.id)) then
        d.map (fun p => if p.1 = m.id then (m.id, m) else p)
      else d ++ [(m.id, m)]) acc).map Prod.fst).Nodup := by
  intro ms
  induction ms with
  | nil => intro acc h; exact h
  | cons m rest ih =>
    intro acc h
    rw [List.foldl_cons]
    apply ih
    rw [buildApiDict_step_names]
    split
    · exact h
    · next hany =>
      rw [List.nodup_append]
      refine ⟨h, List.nodup_singleton _, ?_⟩
      intro k hk
      rw [List.mem_map] at hk
      obtain ⟨p, hp, hpk⟩ := hk
      rw [List.mem_singleton]
      intro hc
      exact hany (List.any_eq_true.mpr ⟨p, hp, by simp [hpk, hc]⟩)

theorem buildApiDict_fold_mem : ∀ (ms : List ApiModel) (acc : List (String × ApiModel)) (k : String),
    (k ∈ (ms.foldl (fun d m =>
      if d.any (fun p => decide (p.1 = m.id)) then
        d.map (fun p => if p.1 = m.id then (m.id, m) else p)
      else d ++ [(m.id, m)]) acc).map Prod.fst) ↔
      k ∈ acc.map Prod.fst ∨ k ∈ ms.map (fun m => m.id) := by
  intro ms
  induction ms with
  | nil => intro acc k; simp
  | cons m rest ih =>
    intro acc k
    rw [List.foldl_cons, ih, buildApiDict_step_names]
    split
    · next hany =>
      rw [List.any_eq_true] at hany
      obtain ⟨p, hp, hpk⟩ := hany
      simp only [List.map_cons, List.mem_cons]
      constructor
      · rintro (h1 | h1)
        · exact Or.inl h1
        · exact Or.inr (Or.inr h1)
      · rintro (h1 | h1 | h1)
        · exact Or.inl h1
        · left
          rw [h1]
          rw [List.mem_map]
          exact ⟨p, hp, by simpa using hpk⟩
        · exact Or.inr h1
    · simp only [List.mem_append, List.mem_singleton, List.map_cons, List.mem_cons]
      tauto

theorem buildApiDict_keys_nodup (catalog : List ApiModel) :
    ((buildApiDict catalog).map Prod.fst).Nodup :=
  buildApiDict_fold_nodup catalog [] (by simp)

theorem mem_buildApiDict_keys (catalog : List ApiModel) (k : String) :
    k ∈ (buildApiDict catalog).map Prod.fst ↔ k ∈ catalog.map (fun m => m.id) := by
  rw [buildApiDict, buildApiDict_fold_mem]
  simp

theorem foldlM_invariant_pos {α σ : Type} (full : List α) (f : σ → α → Except PyErr σ)
    (P : List α → σ → Prop)
    (hstep : ∀ done a rest st st', full = done ++ a :: rest → P done st →
      f st a = .ok st' → P (done ++ [a]) st') :
    ∀ (l done : List α) (st st' : σ), full = done ++ l → P done st →
      l.foldlM f st = .ok st' → P (done ++ l) st' := by
  intro l
  induction l with
  | nil =>
    intro done st st' _ hP h
    simp only [List.foldlM_nil] at h
    cases h
    simpa using hP
  | cons a as ih =>
    intro done st st' hfull hP h
    rw [List.foldlM_cons, except_bind_ok] at h
    obtain ⟨st1, h1, h2⟩ := h
    have := ih (done ++ [a]) st1 st' (by rw [hfull, List.append_assoc]; rfl)
      (hstep done a as st st1 hfull hP h1) h2
    simpa using this

theorem assoc_fst_functional {α β : Type} {ex : List (α × β)} (hnd : (ex.map Prod.fst).Nodup)
    {m : α} {a b : β} (ha : (m, a) ∈ ex) (hb : (m, b) ∈ ex) : a = b := by
  induction ex with
  | nil => simp at ha
  | cons p ps ih =>
    rw [List.map_cons, List.nodup_cons] at hnd
    rcases List.mem_cons.mp ha with h1 | h1
    · rcases List.mem_cons.mp hb with h2 | h2
      · have h12 := h1.trans h2.symm
        injection h12
      · exfalso
        apply hnd.1
        rw [← h1]
        exact List.mem_map.mpr ⟨(m, b), h2, rfl⟩
    · rcases List.mem_cons.mp hb with h2 | h2
      · exfalso
        apply hnd.1
        rw [← h2]
        exact List.mem_map.mpr ⟨(m, a), h1, rfl⟩
      · exact ih hnd.2 h1 h2

theorem assoc_snd_functional {ex : List (Y × String)} (hnd : (ex.map Prod.snd).Nodup)
    {a b : Y} {fn : String} (ha : (a, fn) ∈ ex) (hb : (b, fn) ∈ ex) : a = b := by
  induction ex with
  | nil => simp at ha
  | cons p ps ih =>
    rw [List.map_cons, List.nodup_cons] at hnd
    rcases List.mem_cons.mp ha with h1 | h1
    · rcases List.mem_cons.mp hb with h2 | h2
      · have h12 := h1.trans h2.symm
        injection h12
      · exfalso
        apply hnd.1
        rw [← h1]
        exact List.mem_map.mpr ⟨(b, fn), h2, rfl⟩
    · rcases List.mem_cons.mp hb with h2 | h2
      · exfalso
        apply hnd.1
        rw [← h2]
        exact List.mem_map.mpr ⟨(a, fn), h1, rfl⟩
      · exact ih hnd.2 h1 h2

theorem sync_step (dir1 : DirState) (ex : List (Y × String)) (apiD : List (String × ApiModel))
    (hnd1 : (dir1.map Prod.fst).Nodup)
    (hexmem : ∀ m fn, (m, fn) ∈ ex →
      ∃ d, (fn, FileContent.yamlDoc d) ∈ dir1 ∧ dictGet d "model" = some m)
    (hexkeys : (ex.map Prod.fst).Nodup)
    (hexfn : (ex.map Prod.snd).Nodup)
    (hkeys : (apiD.map Prod.fst).Nodup)
    (hfresh : ∀ kv ∈ apiD, (regGet ex (Y.str kv.1)).isNone = true →
      derivedFileName kv.1 ∉ dir1.map Prod.fst)
    (hnewnodup : ((apiD.filter (fun kv => (regGet ex (Y.str kv.1)).isNone)).map
      (fun kv => derivedFileName kv.1)).Nodup) :
    ∀ done kv rest st st', apiD = done ++ kv :: rest →
      SyncInv dir1 ex done st → processEntry ex st kv = .ok st' →
      SyncInv dir1 ex (done ++ [kv]) st' := by
  intro done kv rest st st' hsplit hInv hstep
  obtain ⟨hnames, hunreg, hpending, hdone, hcreated⟩ := hInv
  have hdoneKeys : ∀ kv' ∈ done, ¬kv'.1 = kv.1 := by
    intro kv' hkv' hc
    rw [hsplit, List.map_append, List.nodup_append] at hkeys
    exact hkeys.2.2 (List.mem_map.mpr ⟨kv', hkv', hc⟩) (by simp)
  have hdoneCreFresh : ∀ kv' ∈ done, (regGet ex (Y.str kv'.1)).isNone = true →
      derivedFileName kv'.1 ∉ dir1.map Prod.fst := by
    intro kv' hkv' hr
    exact hfresh kv' (by rw [hsplit]; exact List.mem_append_left _ hkv') hr
  have hkvmem : kv ∈ apiD := by
    rw [hsplit]
    exact List.mem_append_right _ (List.mem_cons_self _ _)
  rw [processEntry] at hstep
  rcases hreg : regGet ex (Y.str kv.1) with _ | filename
  · -- creation branch
    rw [hreg] at hstep
    rcases htpl : create_yaml_template kv.1 kv.2 with e | d
    · rw [htpl] at hstep
      simp [throw, throwThe, MonadExceptOf.throw] at hstep
    · rw [htpl] at hstep
      simp only [Pure.pure, Except.pure, Except.ok.injEq] at hstep
      subst hstep
      have hnotdir1 : derivedFileName kv.1 ∉ dir1.map Prod.fst :=
        hfresh kv hkvmem (by rw [hreg]; rfl)
      have hnotdone : derivedFileName kv.1 ∉
          ((done.filter (fun kv' => (regGet ex (Y.str kv'.1)).isNone)).map
            (fun kv' => derivedFileName kv'.1)) := by
        rw [hsplit, List.filter_append, List.map_append, List.nodup_append] at hnewnodup
        intro hc
        refine hnewnodup.2.2 hc ?_
        rw [List.filter_cons, if_pos (by rw [hreg]; rfl)]
        simp
      have hnotst : derivedFileName kv.1 ∉ st.dir.map Prod.fst := by
        rw [hnames, List.mem_append]
        rintro (hc | hc)
        · exact hnotdir1 hc
        · exact hnotdone hc
      refine ⟨?_, ?_, ?_, ?_, ?_⟩
      · simp only [List.filter_append, List.map_append, List.filter_cons]
        rw [if_pos (by rw [hreg]; rfl)]
        rw [saveFile_names_not_mem _ _ _ hnotst, hnames]
        simp
      · intro fn c hmem hnone
        have := hunreg fn c hmem hnone
        rw [mem_saveFile_iff]
        left
        refine ⟨this, ?_⟩
        rintro rfl
        exact hnotdir1 (List.mem_map.mpr ⟨(derivedFileName kv.1, c), hmem, rfl⟩)
      · intro m fn hmemex hnotdone' c hmem
        have := hpending m fn hmemex (fun kv' hkv' =>
          hnotdone' kv' (List.mem_append_left _ hkv')) c hmem
        rw [mem_saveFile_iff]
        left
        refine ⟨this, ?_⟩
        rintro rfl
        exact hnotdir1 (List.mem_map.mpr ⟨(derivedFileName kv.1, c), hmem, rfl⟩)
      · intro m fn hmemex kv' hkv' hmk
        rcases List.mem_append.mp hkv' with hkv1 | hkv1
        · obtain ⟨d', hmem', hFD', hmodel'⟩ := hdone m fn hmemex kv' hkv1 hmk
          refine ⟨d', ?_, hFD', hmodel'⟩
          rw [mem_saveFile_iff]
          left
          obtain ⟨d0, hd0, _⟩ := hexmem m fn hmemex
          refine ⟨hmem', ?_⟩
          rintro rfl
          exact hnotdir1 (List.mem_map.mpr ⟨(derivedFileName kv.1, FileContent.yamlDoc d0), hd0, rfl⟩)
        · rw [List.mem_singleton] at hkv1
          subst hkv1
          exfalso
          rw [regGet_eq_none_iff] at hreg
          exact hreg fn (hmk ▸ hmemex)
      · intro kv' hkv' hr
        rcases List.mem_append.mp hkv' with hkv1 | hkv1
        · obtain ⟨d', htpl', hmem'⟩ := hcreated kv' hkv1 hr
          refine ⟨d', htpl', ?_⟩
          rw [mem_saveFile_iff]
          by_cases hceq : derivedFileName kv'.1 = derivedFileName kv.1
          · exfalso
            rw [hsplit, List.filter_append, List.map_append, List.nodup_append] at hnewnodup
            refine hnewnodup.2.2
              (List.mem_map.mpr ⟨kv', List.mem_filter.mpr ⟨hkv1, hr⟩, rfl⟩) ?_
            rw [List.filter_cons, if_pos (by rw [hreg]; rfl)]
            rw [hceq]
            simp
          · exact Or.inl ⟨hmem', hceq⟩
        · rw [List.mem_singleton] at hkv1
          subst hkv1
          refine ⟨d, htpl, ?_⟩
          rw [mem_saveFile_iff]
          right
          exact ⟨rfl, rfl⟩
  · -- update branch
    rw [hreg] at hstep
    have hmem_ex : (Y.str kv.1, filename) ∈ ex := regGet_eq_some_mem _ _ _ hreg
    obtain ⟨d0, hd0mem, hd0model⟩ := hexmem _ _ hmem_ex
    have hpendkv : ∀ kv' ∈ done, ¬Y.str kv'.1 = Y.str kv.1 := by
      intro kv' hkv' hc
      exact hdoneKeys kv' hkv' (by injection hc)
    have hcur : (filename, FileContent.yamlDoc d0) ∈ st.dir :=
      hpending _ _ hmem_ex hpendkv _ hd0mem
    have hdonefresh : ∀ nm ∈ (done.filter
        (fun kv' => (regGet ex (Y.str kv'.1)).isNone)).map (fun kv' => derivedFileName kv'.1),
        nm ∉ dir1.map Prod.fst := by
      intro nm hnm
      rw [List.mem_map] at hnm
      obtain ⟨kv', hkv', rfl⟩ := hnm
      have hf := List.mem_filter.mp hkv'
      exact hdoneCreFresh kv' hf.1 hf.2
    have hndst : (st.dir.map Prod.fst).Nodup := by
      rw [hnames, List.nodup_append]
      refine ⟨hnd1, ?_, ?_⟩
      · rw [hsplit, List.filter_append, List.map_append, List.nodup_append] at hnewnodup
        exact hnewnodup.1
      · intro a h1 h2
        exact hdonefresh a h2 h1
    have hd1names : filename ∈ dir1.map Prod.fst :=
      List.mem_map.mpr ⟨(filename, FileContent.yamlDoc d0), hd0mem, rfl⟩
    have hlook : lookupFile st.dir filename = some (FileContent.yamlDoc d0) :=
      lookupFile_eq_some_of_mem _ _ _ hndst hcur
    rcases hupd : updateDoc kv.2 d0 with e | r
    · simp [hlook, load_yaml_file, hupd, throw, throwThe, MonadExceptOf.throw] at hstep
    · simp only [hlook, load_yaml_file, hupd] at hstep
      obtain ⟨hFD, hnoch, hmodel'⟩ := updateDoc_ok_char (r.eta ▸ hupd)
      have hfilterkv : (done ++ [kv]).filter (fun kv' => (regGet ex (Y.str kv'.1)).isNone) =
          done.filter (fun kv' => (regGet ex (Y.str kv'.1)).isNone) := by
        rw [List.filter_append, List.filter_cons]
        rw [if_neg (by rw [hreg]; simp)]
        simp
      by_cases hch : r.2.isEmpty = true
      · rw [if_pos hch] at hstep
        simp only [Pure.pure, Except.pure, Except.ok.injEq] at hstep
        subst hstep
        have hr2 : r.2 = [] := by simpa [List.isEmpty_iff] using hch
        have hr1 : r.1 = d0 := hnoch hr2
        refine ⟨?_, hunreg, ?_, ?_, ?_⟩
        · rw [hfilterkv]
          exact hnames
        · intro m fn hmemex hnotdone' c hmem
          exact hpending m fn hmemex
            (fun kv' hkv' => hnotdone' kv' (List.mem_append_left _ hkv')) c hmem
        · intro m fn hmemex kv' hkv' hmk
          rcases List.mem_append.mp hkv' with hkv1 | hkv1
          · exact hdone m fn hmemex kv' hkv1 hmk
          · rw [List.mem_singleton] at hkv1
            subst hkv1
            have hfn : fn = filename :=
              assoc_fst_functional hexkeys (hmk ▸ hmemex) hmem_ex
            subst hfn
            exact ⟨d0, hcur, hr1 ▸ hFD, hmk ▸ hd0model⟩
        · intro kv' hkv' hr
          rcases List.mem_append.mp hkv' with hkv1 | hkv1
          · exact hcreated kv' hkv1 hr
          · rw [List.mem_singleton] at hkv1
            subst hkv1
            rw [hreg] at hr
            cases hr
      · rw [if_neg hch] at hstep
        simp only [Pure.pure, Except.pure, Except.ok.injEq] at hstep
        subst hstep
        refine ⟨?_, ?_, ?_, ?_, ?_⟩
        · rw [hfilterkv]
          simp only
          rw [saveFile_names_mem _ _ _ (by rw [hnames]; exact List.mem_append_left _ hd1names)]
          exact hnames
        · intro fn c hmem hnone
          have := hunreg fn c hmem hnone
          simp only
          rw [mem_saveFile_iff]
          left
          refine ⟨this, ?_⟩
          rintro rfl
          exact hnone (Y.str kv.1) hmem_ex
        · intro m fn hmemex hnotdone' c hmem
          have := hpending m fn hmemex
            (fun kv' hkv' => hnotdone' kv' (List.mem_append_left _ hkv')) c hmem
          simp only
          rw [mem_saveFile_iff]
          left
          refine ⟨this, ?_⟩
          rintro rfl
          have : m = Y.str kv.1 := assoc_snd_functional hexfn hmemex hmem_ex
          exact hnotdone' kv (List.mem_append_right _ (List.mem_singleton.mpr rfl)) this.symm
        · intro m fn hmemex kv' hkv' hmk
          rcases List.mem_append.mp hkv' with hkv1 | hkv1
          · obtain ⟨d', hmem', hFD', hmodel''⟩ := hdone m fn hmemex kv' hkv1 hmk
            refine ⟨d', ?_, hFD', hmodel''⟩
            simp only
            rw [mem_saveFile_iff]
            left
            refine ⟨hmem', ?_⟩
            rintro rfl
            have hm2 : m = Y.str kv.1 := assoc_snd_functional hexfn hmemex hmem_ex
            exact hdoneKeys kv' hkv1 (by rw [← hmk] at hm2; injection hm2)
          · rw [List.mem_singleton] at hkv1
            subst hkv1
            have hfn : fn = filename :=
              assoc_fst_functional hexkeys (hmk ▸ hmemex) hmem_ex
            subst hfn
            refine ⟨r.1, ?_, hFD, ?_⟩
            · simp only
              rw [mem_saveFile_iff]
              right
              exact ⟨rfl, rfl⟩
            · rw [hmodel', hd0model, hmk]
        · intro kv' hkv' hr
          rcases List.mem_append.mp hkv' with hkv1 | hkv1
          · obtain ⟨d', htpl', hmem'⟩ := hcreated kv' hkv1 hr
            refine ⟨d', htpl', ?_⟩
            simp only
            rw [mem_saveFile_iff]
            left
            refine ⟨hmem', ?_⟩
            intro hceq
            exact hdoneCreFresh kv' hkv1 hr (hceq ▸ hd1names)
          · rw [List.mem_singleton] at hkv1
            subst hkv1
            rw [hreg] at hr
            cases hr

theorem strEndsWith_append (a b : String) : strEndsWith (a ++ b) b = true := by
  rw [strEndsWith, String.data_append, List.reverse_append]
  induction b.data.reverse with
  | nil => rfl
  | cons c cs ih =>
    rw [List.cons_append, listLeads]
    simp [ih]

theorem delete_fold_char (apiD : List (String × ApiModel)) :
    ∀ (l : List (Y × String)) (st st' : SyncSt),
      l.foldlM (deleteEntry apiD) st = .ok st' →
      (∀ fn c, ((fn, c) ∈ st'.dir ↔ ((fn, c) ∈ st.dir ∧
        ∀ m, (m, fn) ∈ l → ∃ kv ∈ apiD, Y.str kv.1 = m))) ∧
      st'.created = st.created ∧ st'.updated = st.updated ∧ st'.unchanged = st.unchanged := by
  intro l
  induction l with
  | nil =>
    intro st st' h
    simp only [List.foldlM_nil] at h
    cases h
    refine ⟨fun fn c => ?_, rfl, rfl, rfl⟩
    simp
  | cons q qs ih =>
    intro st st' h
    rw [List.foldlM_cons, except_bind_ok] at h
    obtain ⟨st1, h1, h2⟩ := h
    rw [deleteEntry] at h1
    by_cases hm : apiD.any (fun p => decide (Y.str p.1 = q.1)) = true
    · rw [if_pos hm] at h1
      simp only [Pure.pure, Except.pure, Except.ok.injEq] at h1
      subst h1
      obtain ⟨hiff, hc1, hc2, hc3⟩ := ih st st' h2
      refine ⟨fun fn c => ?_, hc1, hc2, hc3⟩
      rw [hiff fn c]
      constructor
      · rintro ⟨hmem, hcond⟩
        refine ⟨hmem, ?_⟩
        intro m hml
        rcases List.mem_cons.mp hml with h1 | h1
        · rw [List.any_eq_true] at hm
          obtain ⟨p, hp, hpq⟩ := hm
          have hm1 : m = q.1 := congrArg Prod.fst h1
          exact ⟨p, hp, by rw [hm1]; simpa using hpq⟩
        · exact hcond m h1
      · rintro ⟨hmem, hcond⟩
        exact ⟨hmem, fun m hml => hcond m (List.mem_cons_of_mem _ hml)⟩
    · rw [if_neg hm] at h1
      by_cases hp : st.dir.any (fun e => decide (e.1 = q.2)) = true
      · rw [if_pos hp] at h1
        simp only [Pure.pure, Except.pure, Except.ok.injEq] at h1
        subst h1
        obtain ⟨hiff, hc1, hc2, hc3⟩ := ih _ st' h2
        refine ⟨fun fn c => ?_, hc1, hc2, hc3⟩
        rw [hiff fn c]
        simp only [mem_removeFile_iff]
        constructor
        · rintro ⟨⟨hmem, hne⟩, hcond⟩
          refine ⟨hmem, ?_⟩
          intro m hml
          rcases List.mem_cons.mp hml with h1 | h1
          · exact absurd (congrArg Prod.snd h1) hne
          · exact hcond m h1
        · rintro ⟨hmem, hcond⟩
          have hne : fn ≠ q.2 := by
            rintro rfl
            obtain ⟨kv, hkv, hkvq⟩ := hcond q.1 (by
              have : q = (q.1, q.2) := rfl
              rw [List.mem_cons]
              left
              rw [this])
            exact hm (List.any_eq_true.mpr ⟨kv, hkv, by simpa using hkvq⟩)
          exact ⟨⟨hmem, hne⟩, fun m hml => hcond m (List.mem_cons_of_mem _ hml)⟩
      · rw [if_neg hp] at h1
        simp [throw, throwThe, MonadExceptOf.throw] at h1

theorem nodup_fst_of_snd {α β : Type} : ∀ {l : List (α × β)},
    (l.map Prod.snd).Nodup →
    (∀ p q, p ∈ l → q ∈ l → p.1 = q.1 → p.2 = q.2) →
    (l.map Prod.fst).Nodup := by
  intro l
  induction l with
  | nil => intro _ _; simp
  | cons p ps ih =>
    intro h2 hfun
    rw [List.map_cons, List.nodup_cons] at h2 ⊢
    refine ⟨?_, ih h2.2 (fun a b ha hb => hfun a b (List.mem_cons_of_mem _ ha)
      (List.mem_cons_of_mem _ hb))⟩
    intro hc
    obtain ⟨q, hq, hq1⟩ := List.mem_map.mp hc
    have := hfun p q (List.mem_cons_self _ _) (List.mem_cons_of_mem _ hq) hq1.symm
    exact h2.1 (this ▸ List.mem_map.mpr ⟨q, hq, rfl⟩)

theorem delete_fold_names_nodup (apiD : List (String × ApiModel)) :
    ∀ (l : List (Y × String)) (st st' : SyncSt),
      l.foldlM (deleteEntry apiD) st = .ok st' →
      (st.dir.map Prod.fst).Nodup → (st'.dir.map Prod.fst).Nodup := by
  intro l
  induction l with
  | nil =>
    intro st st' h hnd
    simp only [List.foldlM_nil] at h
    cases h
    exact hnd
  | cons q qs ih =>
    intro st st' h hnd
    rw [List.foldlM_cons, except_bind_ok] at h
    obtain ⟨st1, h1, h2⟩ := h
    rw [deleteEntry] at h1
    by_cases hm : apiD.any (fun p => decide (Y.str p.1 = q.1)) = true
    · rw [if_pos hm] at h1
      simp only [Pure.pure, Except.pure, Except.ok.injEq] at h1
      subst h1
      exact ih st st' h2 hnd
    · rw [if_neg hm] at h1
      by_cases hp : st.dir.any (fun e => decide (e.1 = q.2)) = true
      · rw [if_pos hp] at h1
        simp only [Pure.pure, Except.pure, Except.ok.injEq] at h1
        subst h1
        refine ih _ st' h2 ?_
        show (((removeFile st.dir q.2)).map Prod.fst).Nodup
        rw [removeFile_names]
        exact hnd.filter _
      · rw [if_neg hp] at h1
        simp [throw, throwThe, MonadExceptOf.throw] at h1

theorem mem_truthyModelVals (dir : DirState) (v : Y) :
    v ∈ truthyModelVals dir ↔ ∃ fn d, (fn, FileContent.yamlDoc d) ∈ dir ∧
      strEndsWith fn ".yaml" = true ∧ dictGet d "model" = some v ∧ pyTruthy v = true := by
  rw [truthyModelVals, List.mem_filterMap]
  constructor
  · rintro ⟨⟨fn, c⟩, hmem, hval⟩
    by_cases hy : strEndsWith fn ".yaml" = true
    · rw [if_pos hy] at hval
      cases c with
      | nonMapping s => simp at hval
      | yamlDoc d =>
        rcases hg : dictGet d "model" with _ | w
        · simp only [hg] at hval
          exact Option.noConfusion hval
        · simp only [hg] at hval
          by_cases ht : pyTruthy w = true
          · rw [if_pos ht, Option.some.injEq] at hval
            subst hval
            exact ⟨fn, d, hmem, hy, hg, ht⟩
          · rw [if_neg ht] at hval
            cases hval
    · rw [if_neg hy] at hval
      cases hval
  · rintro ⟨fn, d, hmem, hy, hg, ht⟩
    refine ⟨(fn, FileContent.yamlDoc d), hmem, ?_⟩
    simp only [hy, if_true, hg, ht, if_true]

theorem saveFile_id (dir : DirState) (fn : String) (c : FileContent)
    (hnd : (dir.map Prod.fst).Nodup) (h : (fn, c) ∈ dir) : saveFile dir fn c = dir := by
  rw [saveFile, if_pos (List.any_eq_true.mpr ⟨(fn, c), h, by simp⟩)]
  have hcong : ∀ e ∈ dir, (if e.1 = fn then (fn, c) else e) = id e := by
    intro e he
    by_cases hefn : e.1 = fn
    · rw [if_pos hefn, id]
      obtain ⟨e1, e2⟩ := e
      simp only at hefn
      subst hefn
      rw [assoc_fst_functional hnd h he]
    · rw [if_neg hefn, id]
  rw [List.map_congr_left hcong, List.map_id]

theorem sync_run_char {catalog : List ApiModel} {dir0 : DirState} {st : SyncSt}
    (hclean : CleanState catalog (dirAfterIndex catalog dir0))
    (hok : sync_yaml_files catalog dir0 = .ok st) :
    (st.dir.map Prod.fst).Nodup ∧
    (∀ fn c, (fn, c) ∈ dirAfterIndex catalog dir0 →
       (∀ m, (m, fn) ∉ registrations (dirAfterIndex catalog dir0)) → (fn, c) ∈ st.dir) ∧
    (∀ fn c, (fn, c) ∈ st.dir →
       ((fn, c) ∈ dirAfterIndex catalog dir0 ∧
          ∀ m, (m, fn) ∉ registrations (dirAfterIndex catalog dir0)) ∨
       (∃ m kv d, (m, fn) ∈ registrations (dirAfterIndex catalog dir0) ∧
          kv ∈ buildApiDict catalog ∧ Y.str kv.1 = m ∧ c = FileContent.yamlDoc d ∧
          FieldsDerived kv.2 d ∧ dictGet d "model" = some m) ∨
       (∃ kv d, kv ∈ buildApiDict catalog ∧
          (regGet (registrations (dirAfterIndex catalog dir0)) (Y.str kv.1)).isNone = true ∧
          fn = derivedFileName kv.1 ∧ c = FileContent.yamlDoc d ∧
          create_yaml_template kv.1 kv.2 = .ok d)) ∧
    (∀ kv ∈ buildApiDict catalog, ∃ fn d, (fn, FileContent.yamlDoc d) ∈ st.dir ∧
       strEndsWith fn ".yaml" = true ∧ dictGet d "model" = some (Y.str kv.1) ∧
       FieldsDerived kv.2 d) ∧
    (∀ kv ∈ buildApiDict catalog,
       (regGet (registrations (dirAfterIndex catalog dir0)) (Y.str kv.1)).isNone = true →
       ∃ d, create_yaml_template kv.1 kv.2 = .ok d ∧
         (derivedFileName kv.1, FileContent.yamlDoc d) ∈ st.dir) := by
  obtain ⟨hnd1, hexkeys, hnewnd, hfreshnames, hids⟩ := hclean
  have hok' : (bind ((dirAfterIndex catalog dir0).foldlM scanStep [])
      fun existing_files =>
        bind ((buildApiDict catalog).foldlM (processEntry existing_files)
            (SyncSt.mk (dirAfterIndex catalog dir0) [] [] [] []))
          fun st1 => existing_files.foldlM (deleteEntry (buildApiDict catalog)) st1) =
      Except.ok st := hok
  rw [except_bind_ok] at hok'
  obtain ⟨ex, hscan, hok2⟩ := hok'
  rw [except_bind_ok] at hok2
  obtain ⟨st1, hproc, hdel⟩ := hok2
  have hex : ex = registrations (dirAfterIndex catalog dir0) := by
    have := scan_fold_ok (dirAfterIndex catalog dir0) [] ex hscan hexkeys (by simp)
    simpa using this
  subst hex
  set dir1 := dirAfterIndex catalog dir0 with hdir1def
  set ex := registrations dir1 with hexdef
  set apiD := buildApiDict catalog with hapiDdef
  have hexmem : ∀ m fn, (m, fn) ∈ ex → ∃ d, (fn, FileContent.yamlDoc d) ∈ dir1 ∧
      dictGet d "model" = some m := by
    intro m fn hmf
    obtain ⟨_, d, hd, _, hmodel, _⟩ := mem_registrations_char hmf
    exact ⟨d, hd, hmodel⟩
  have hexfn : (ex.map Prod.snd).Nodup := hnd1.sublist (registrations_snd_sublist dir1)
  have hkeys : (apiD.map Prod.fst).Nodup := buildApiDict_keys_nodup catalog
  have hnewnd' : ((apiD.filter (fun kv => (regGet ex (Y.str kv.1)).isNone)).map
      (fun kv => derivedFileName kv.1)).Nodup := by
    rw [newModelIds, List.map_map] at hnewnd
    exact hnewnd
  have hfresh' : ∀ kv ∈ apiD, (regGet ex (Y.str kv.1)).isNone = true →
      derivedFileName kv.1 ∉ dir1.map Prod.fst := by
    intro kv hkv hnone
    apply hfreshnames
    rw [newModelIds, List.map_map]
    exact List.mem_map.mpr ⟨kv, List.mem_filter.mpr ⟨hkv, by simpa using hnone⟩, rfl⟩
  have hinv0 : SyncInv dir1 ex [] (SyncSt.mk dir1 [] [] [] []) := by
    refine ⟨by simp, fun fn c h _ => h, fun m fn hm _ c hc => hc, by simp, by simp⟩
  have hinv1 : SyncInv dir1 ex apiD st1 := by
    have := foldlM_invariant_pos apiD (processEntry ex) (SyncInv dir1 ex)
      (fun done a rest stA stB hsplit hP hstep =>
        sync_step dir1 ex apiD hnd1 hexmem hexkeys hexfn hkeys
          (fun kv hkv hnone => hfresh' kv hkv hnone) hnewnd'
          done a rest stA stB hsplit hP hstep)
      apiD [] (SyncSt.mk dir1 [] [] [] []) st1 (by simp) hinv0 hproc
    simpa using this
  obtain ⟨hinv_names, hinv_pres, hinv_pend, hinv_upd, hinv_new⟩ := hinv1
  have hnd_st1 : (st1.dir.map Prod.fst).Nodup := by
    rw [hinv_names]
    rw [List.nodup_append]
    refine ⟨hnd1, hnewnd', ?_⟩
    intro a ha hb
    obtain ⟨kv, hkvf, hkvd⟩ := List.mem_map.mp hb
    obtain ⟨hkv, hpred⟩ := List.mem_filter.mp hkvf
    exact hfresh' kv hkv (by simpa using hpred) (hkvd ▸ ha)
  obtain ⟨hdiff, _, _, _⟩ := delete_fold_char apiD ex st1 st hdel
  have hnd_st : (st.dir.map Prod.fst).Nodup :=
    delete_fold_names_nodup apiD ex st1 st hdel hnd_st1
  have hpres : ∀ fn c, (fn, c) ∈ dir1 → (∀ m, (m, fn) ∉ ex) → (fn, c) ∈ st.dir := by
    intro fn c hmem hunreg
    exact (hdiff fn c).mpr ⟨hinv_pres fn c hmem hunreg, fun m hm => absurd hm (hunreg m)⟩
  refine ⟨hnd_st, hpres, ?_, ?_, ?_⟩
  · -- classification
    intro fn c hmem
    obtain ⟨hmem1, hmatch⟩ := (hdiff fn c).mp hmem
    by_cases hreg : ∃ m, (m, fn) ∈ ex
    · obtain ⟨m, hm⟩ := hreg
      obtain ⟨kv, hkv, hkveq⟩ := hmatch m hm
      obtain ⟨d', hd'mem, hfd, hmodel⟩ := hinv_upd m fn hm kv hkv hkveq
      have hc : c = FileContent.yamlDoc d' := assoc_fst_functional hnd_st1 hmem1 hd'mem
      exact Or.inr (Or.inl ⟨m, kv, d', hm, hkv, hkveq, hc, hfd, hmodel⟩)
    · push_neg at hreg
      have hfn_names : fn ∈ st1.dir.map Prod.fst := List.mem_map.mpr ⟨(fn, c), hmem1, rfl⟩
      rw [hinv_names, List.mem_append] at hfn_names
      rcases hfn_names with hfn1 | hfnN
      · obtain ⟨e, he, he1⟩ := List.mem_map.mp hfn1
        obtain ⟨e1, e2⟩ := e
        simp only at he1
        rw [he1] at he
        have hst1 : (fn, e2) ∈ st1.dir := hinv_pres fn e2 he hreg
        have hc : c = e2 := assoc_fst_functional hnd_st1 hmem1 hst1
        exact Or.inl ⟨hc ▸ he, hreg⟩
      · obtain ⟨kv, hkvf, hkvd⟩ := List.mem_map.mp hfnN
        obtain ⟨hkv, hpred⟩ := List.mem_filter.mp hkvf
        obtain ⟨d, htempl, hdmem⟩ := hinv_new kv hkv (by simpa using hpred)
        have hc : c = FileContent.yamlDoc d := by
          apply assoc_fst_functional hnd_st1 hmem1
          rw [hkvd] at hdmem
          exact hdmem
        exact Or.inr (Or.inr ⟨kv, d, hkv, by simpa using hpred, hkvd.symm, hc, htempl⟩)
  · -- per-catalog-entry existence
    intro kv hkv
    rcases hr : regGet ex (Y.str kv.1) with _ | fn
    · obtain ⟨d, htempl, hdmem⟩ := hinv_new kv hkv (by simp [hr])
      obtain ⟨hfd, hmodel⟩ := template_ok_char htempl
      refine ⟨derivedFileName kv.1, d, ?_, ?_, hmodel, hfd⟩
      · refine (hdiff _ _).mpr ⟨hdmem, ?_⟩
        intro m hm
        exfalso
        apply hfresh' kv hkv (by simp [hr])
        exact (registrations_snd_sublist dir1).subset
          (List.mem_map.mpr ⟨(m, derivedFileName kv.1), hm, rfl⟩)
      · rw [derivedFileName]
        exact strEndsWith_append _ _
    · have hmemex : (Y.str kv.1, fn) ∈ ex := regGet_eq_some_mem ex (Y.str kv.1) fn hr
      obtain ⟨d', hd'mem, hfd, hmodel⟩ := hinv_upd (Y.str kv.1) fn hmemex kv hkv rfl
      refine ⟨fn, d', ?_, ?_, hmodel, hfd⟩
      · refine (hdiff _ _).mpr ⟨hd'mem, ?_⟩
        intro m hm
        have hmeq : m = Y.str kv.1 := assoc_snd_functional hexfn hm hmemex
        exact ⟨kv, hkv, hmeq.symm⟩
      · exact (mem_registrations_char hmemex).1
  · -- template creation for unregistered ids
    intro kv hkv hnone
    obtain ⟨d, htempl, hdmem⟩ := hinv_new kv hkv hnone
    refine ⟨d, htempl, (hdiff _ _).mpr ⟨hdmem, ?_⟩⟩
    intro m hm
    exfalso
    apply hfresh' kv hkv hnone
    exact (registrations_snd_sublist dir1).subset
      (List.mem_map.mpr ⟨(m, derivedFileName kv.1), hm, rfl⟩)

theorem sync_loop_noop (ex2 : List (Y × String)) (dirF : DirState) :
    ∀ (l : List (String × ApiModel)) (st0 : SyncSt), st0.dir = dirF →
    (∀ kv ∈ l, ∃ fn d, regGet ex2 (Y.str kv.1) = some fn ∧
       lookupFile dirF fn = some (FileContent.yamlDoc d) ∧ FieldsDerived kv.2 d) →
    ∃ st2, l.foldlM (processEntry ex2) st0 = .ok st2 ∧ st2.dir = dirF ∧
      st2.created = st0.created ∧ st2.updated = st0.updated ∧ st2.deleted = st0.deleted := by
  intro l
  induction l with
  | nil =>
    intro st0 hdir _
    exact ⟨st0, by simp [Pure.pure, Except.pure], hdir, rfl, rfl, rfl⟩
  | cons kv kvs ih =>
    intro st0 hdir hall
    obtain ⟨fn, d, hreg, hlook, hfd⟩ := hall kv (List.mem_cons_self _ _)
    have hstep : processEntry ex2 st0 kv =
        .ok { st0 with unchanged := st0.unchanged ++ [fn] } := by
      simp only [processEntry, hreg, hdir, hlook, load_yaml_file, updateDoc_fixpoint hfd,
        List.isEmpty_nil, if_true, Pure.pure, Except.pure]
    rw [List.foldlM_cons, hstep]
    simp only [Bind.bind, Except.bind]
    obtain ⟨st2, hfold, hd2, hc2, hu2, hdel2⟩ :=
      ih { st0 with unchanged := st0.unchanged ++ [fn] } hdir
        (fun q hq => hall q (List.mem_cons_of_mem _ hq))
    exact ⟨st2, hfold, hd2, hc2, hu2, hdel2⟩

theorem delete_loop_noop (apiD : List (String × ApiModel)) :
    ∀ (l : List (Y × String)) (st0 : SyncSt),
    (∀ q ∈ l, ∃ kv ∈ apiD, Y.str kv.1 = q.1) →
    l.foldlM (deleteEntry apiD) st0 = .ok st0 := by
  intro l
  induction l with
  | nil => intro st0 _; simp [Pure.pure, Except.pure]
  | cons q qs ih =>
    intro st0 hall
    obtain ⟨kv, hkv, hkveq⟩ := hall q (List.mem_cons_self _ _)
    rw [List.foldlM_cons, deleteEntry,
      if_pos (List.any_eq_true.mpr ⟨kv, hkv, by simpa using hkveq⟩)]
    show qs.foldlM (deleteEntry apiD) st0 = _
    exact ih st0 (fun p hp => hall p (List.mem_cons_of_mem _ hp))

theorem run2_registrations_char {catalog : List ApiModel} {dir0 : DirState} {st : SyncSt}
    (hclean : CleanState catalog (dirAfterIndex catalog dir0))
    (hok : sync_yaml_files catalog dir0 = .ok st) :
    ∀ q ∈ registrations st.dir, ∃ kv ∈ buildApiDict catalog, Y.str kv.1 = q.1 ∧
      ((q.1, q.2) ∈ registrations (dirAfterIndex catalog dir0) ∨
       ((regGet (registrations (dirAfterIndex catalog dir0)) (Y.str kv.1)).isNone = true ∧
         q.2 = derivedFileName kv.1)) ∧
      ∃ d, (q.2, FileContent.yamlDoc d) ∈ st.dir ∧ dictGet d "model" = some q.1 ∧
        FieldsDerived kv.2 d := by
  obtain ⟨hnd, hpres, hclass, hexist, htempl⟩ := sync_run_char hclean hok
  intro q hq
  obtain ⟨hyaml, d, hd, hdne, hmodel, htruthy⟩ := mem_registrations_char hq
  rcases hclass q.2 (FileContent.yamlDoc d) hd with ⟨hmem1, hunreg⟩ |
    ⟨m, kv, d', hm, hkv, hkveq, hceq, hfd, hmodel'⟩ |
    ⟨kv, d', hkv, hnone, hfneq, hceq, htmpl⟩
  · exfalso
    apply hunreg q.1
    rw [registrations, List.mem_filterMap]
    exact ⟨(q.2, FileContent.yamlDoc d), hmem1, fileReg_yamlDoc q.2 d q.1 hyaml hmodel htruthy⟩
  · injection hceq with hdd
    subst hdd
    have hmq : m = q.1 := Option.some.inj (hmodel'.symm.trans hmodel)
    subst hmq
    exact ⟨kv, hkv, hkveq, Or.inl hm, d, hd, hmodel, hfd⟩
  · injection hceq with hdd
    subst hdd
    obtain ⟨hfd, hmodel'⟩ := template_ok_char htmpl
    have hmq : Y.str kv.1 = q.1 := Option.some.inj (hmodel'.symm.trans hmodel)
    exact ⟨kv, hkv, hmq, Or.inr ⟨hnone, hfneq⟩, d, hd, hmodel, hfd⟩

theorem sync_idempotent {catalog : List ApiModel} {dir0 : DirState} {st : SyncSt}
    (hclean : CleanState catalog (dirAfterIndex catalog dir0))
    (hok : sync_yaml_files catalog dir0 = .ok st) :
    dirAfterIndex catalog st.dir = st.dir ∧
    ∃ st2, sync_yaml_files catalog st.dir = .ok st2 ∧ st2.dir = st.dir ∧
      st2.created = [] ∧ st2.updated = [] ∧ st2.deleted = [] := by
  obtain ⟨hnd, hpres, hclass, hexist, htempl⟩ := sync_run_char hclean hok
  have hreg2 := run2_registrations_char hclean hok
  have hnd1 : ((dirAfterIndex catalog dir0).map Prod.fst).Nodup := hclean.1
  have hexkeys : ((registrations (dirAfterIndex catalog dir0)).map Prod.fst).Nodup := hclean.2.1
  have hids : ∀ m ∈ catalog, m.id ≠ "" := hclean.2.2.2.2
  have hkeys : ((buildApiDict catalog).map Prod.fst).Nodup := buildApiDict_keys_nodup catalog
  have hposmem1 : (positionFileName, FileContent.nonMapping (positionContent catalog)) ∈
      dirAfterIndex catalog dir0 := by
    rw [dirAfterIndex, mem_saveFile_iff]
    exact Or.inr ⟨rfl, rfl⟩
  have hposunreg : ∀ m, (m, positionFileName) ∉ registrations (dirAfterIndex catalog dir0) := by
    intro m hm
    obtain ⟨_, d, hd, _, _, _⟩ := mem_registrations_char hm
    exact FileContent.noConfusion (assoc_fst_functional hnd1 hd hposmem1)
  have hposst : (positionFileName, FileContent.nonMapping (positionContent catalog)) ∈ st.dir :=
    hpres _ _ hposmem1 hposunreg
  have hA : dirAfterIndex catalog st.dir = st.dir := by
    rw [dirAfterIndex]
    exact saveFile_id st.dir _ _ hnd hposst
  have hhash2 : ∀ q ∈ registrations st.dir, pyHashable q.1 = true := by
    intro q hq
    obtain ⟨kv, _, hkveq, _, _⟩ := hreg2 q hq
    rw [← hkveq]
    rfl
  have hsnd2 : ((registrations st.dir).map Prod.snd).Nodup :=
    hnd.sublist (registrations_snd_sublist st.dir)
  have hfst2 : ((registrations st.dir).map Prod.fst).Nodup := by
    apply nodup_fst_of_snd hsnd2
    intro p q hp hq hpq
    obtain ⟨kvp, hkvp, hkvpeq, hpc, _⟩ := hreg2 p hp
    obtain ⟨kvq, hkvq, hkvqeq, hqc, _⟩ := hreg2 q hq
    rcases hpc with hpin | ⟨hpnone, hpder⟩
    · rcases hqc with hqin | ⟨hqnone, hqder⟩
      · exact assoc_fst_functional hexkeys (hpq ▸ hpin) hqin
      · exfalso
        have := (regGet_eq_none_iff (registrations (dirAfterIndex catalog dir0))
          (Y.str kvq.1)).mp (Option.isNone_iff_eq_none.mp hqnone)
        exact this p.2 (by rw [hkvqeq, ← hpq]; exact hpin)
    · rcases hqc with hqin | ⟨hqnone, hqder⟩
      · exfalso
        have := (regGet_eq_none_iff (registrations (dirAfterIndex catalog dir0))
          (Y.str kvp.1)).mp (Option.isNone_iff_eq_none.mp hpnone)
        exact this q.2 (by rw [hkvpeq, hpq]; exact hqin)
      · have hkk : kvp.1 = kvq.1 := Y.str.inj (hkvpeq.trans (hpq.trans hkvqeq.symm))
        rw [hpder, hqder, hkk]
  have hscan2 : st.dir.foldlM scanStep [] = .ok ([] ++ registrations st.dir) :=
    scan_fold_total st.dir [] hfst2 (by simp) hhash2
  have hproc_hyp : ∀ kv ∈ buildApiDict catalog, ∃ fn d,
      regGet (registrations st.dir) (Y.str kv.1) = some fn ∧
      lookupFile st.dir fn = some (FileContent.yamlDoc d) ∧ FieldsDerived kv.2 d := by
    intro kv hkv
    obtain ⟨fn0, d0, hmem0, hyaml0, hmodel0, hfd0⟩ := hexist kv hkv
    have hid_ne : kv.1 ≠ "" := by
      have hkvid : kv.1 ∈ catalog.map (fun m => m.id) :=
        (mem_buildApiDict_keys catalog kv.1).mp (List.mem_map.mpr ⟨kv, hkv, rfl⟩)
      obtain ⟨m, hm, hmid⟩ := List.mem_map.mp hkvid
      exact hmid ▸ hids m hm
    have htruthy : pyTruthy (Y.str kv.1) = true := by
      simp [pyTruthy, hid_ne]
    have hmemreg : (Y.str kv.1, fn0) ∈ registrations st.dir := by
      rw [registrations, List.mem_filterMap]
      exact ⟨(fn0, FileContent.yamlDoc d0), hmem0,
        fileReg_yamlDoc fn0 d0 _ hyaml0 hmodel0 htruthy⟩
    rcases hr : regGet (registrations st.dir) (Y.str kv.1) with _ | fn1
    · exact absurd hmemreg ((regGet_eq_none_iff _ _).mp hr fn0)
    · have hmem1 : (Y.str kv.1, fn1) ∈ registrations st.dir := regGet_eq_some_mem _ _ _ hr
      obtain ⟨_, d1, hd1, _, hmodel1, _⟩ := mem_registrations_char hmem1
      obtain ⟨kv', hkv', hkv'eq, _, d', hd', hmodel', hfd'⟩ := hreg2 _ hmem1
      have hd1d' : d' = d1 := by
        have hcc := assoc_fst_functional hnd hd' hd1
        injection hcc
      have hkv'1 : kv'.1 = kv.1 := Y.str.inj hkv'eq
      have hin1 : (kv.1, kv'.2) ∈ buildApiDict catalog := by
        rw [← hkv'1, Prod.mk.eta]
        exact hkv'
      have hin2 : (kv.1, kv.2) ∈ buildApiDict catalog := by
        rw [Prod.mk.eta]
        exact hkv
      have hkv'2 : kv'.2 = kv.2 := assoc_fst_functional hkeys hin1 hin2
      rw [hd1d', hkv'2] at hfd'
      exact ⟨fn1, d1, rfl, lookupFile_eq_some_of_mem st.dir fn1 _ hnd hd1, hfd'⟩
  obtain ⟨st2, hfold2, hdir2, hc2, hu2, hdel2⟩ :=
    sync_loop_noop (registrations st.dir) st.dir (buildApiDict catalog)
      (SyncSt.mk st.dir [] [] [] []) rfl hproc_hyp
  have hdelete2 : (registrations st.dir).foldlM (deleteEntry (buildApiDict catalog)) st2 =
      .ok st2 :=
    delete_loop_noop (buildApiDict catalog) (registrations st.dir) st2
      (fun q hq => (hreg2 q hq).imp (fun kv h => ⟨h.1, h.2.1⟩))
  have hrun2 : sync_yaml_files catalog st.dir = .ok st2 := by
    have h0 : (bind ((dirAfterIndex catalog st.dir).foldlM scanStep [])
        fun ex2 => bind ((buildApiDict catalog).foldlM (processEntry ex2)
            (SyncSt.mk (dirAfterIndex catalog st.dir) [] [] [] []))
          fun s1 => ex2.foldlM (deleteEntry (buildApiDict catalog)) s1) = Except.ok st2 := by
      rw [hA, hscan2]
      simp only [Bind.bind, Except.bind, List.nil_append]
      rw [hfold2]
      exact hdelete2
    exact h0
  exact ⟨hA, st2, hrun2, hdir2, hc2, hu2, hdel2⟩

/-- C1 (amended): after a successful run from a well-formed starting state
(unique file names, pairwise-distinct registered model values,
collision-free derived creation names, non-empty catalog ids), the truthy
`model` values of the `.yaml` definition files are exactly the catalog's
identifiers (as strings), and every definition file carrying a truthy
model value has every governed field (context size, prices, labels,
feature set) equal to the value derived from its catalog record. -/
theorem C1_amended {catalog : List ApiModel} {dir0 : DirState} {st : SyncSt}
    (hclean : CleanState catalog (dirAfterIndex catalog dir0))
    (hok : sync_yaml_files catalog dir0 = .ok st) :
    (∀ v, v ∈ truthyModelVals st.dir ↔ ∃ m ∈ catalog, v = Y.str m.id) ∧
    (∀ fn d v, (fn, FileContent.yamlDoc d) ∈ st.dir → strEndsWith fn ".yaml" = true →
       dictGet d "model" = some v → pyTruthy v = true →
       ∃ kv ∈ buildApiDict catalog, v = Y.str kv.1 ∧ FieldsDerived kv.2 d) := by
  obtain ⟨hnd, hpres, hclass, hexist, htempl⟩ := sync_run_char hclean hok
  have hids : ∀ m ∈ catalog, m.id ≠ "" := hclean.2.2.2.2
  have hsecond : ∀ fn d v, (fn, FileContent.yamlDoc d) ∈ st.dir →
      strEndsWith fn ".yaml" = true → dictGet d "model" = some v → pyTruthy v = true →
      ∃ kv ∈ buildApiDict catalog, v = Y.str kv.1 ∧ FieldsDerived kv.2 d := by
    intro fn d v hmem hyaml hmodel htruthy
    rcases hclass fn (FileContent.yamlDoc d) hmem with ⟨hmem1, hunreg⟩ |
      ⟨m, kv, d', hm, hkv, hkveq, hceq, hfd, hmodel'⟩ |
      ⟨kv, d', hkv, hnone, hfneq, hceq, htmpl⟩
    · exfalso
      apply hunreg v
      rw [registrations, List.mem_filterMap]
      exact ⟨(fn, FileContent.yamlDoc d), hmem1, fileReg_yamlDoc fn d v hyaml hmodel htruthy⟩
    · injection hceq with hdd
      subst hdd
      have hmv : m = v := Option.some.inj (hmodel'.symm.trans hmodel)
      subst hmv
      exact ⟨kv, hkv, hkveq.symm, hfd⟩
    · injection hceq with hdd
      subst hdd
      obtain ⟨hfd, hmodel'⟩ := template_ok_char htmpl
      have hmv : Y.str kv.1 = v := Option.some.inj (hmodel'.symm.trans hmodel)
      exact ⟨kv, hkv, hmv.symm, hfd⟩
  refine ⟨?_, hsecond⟩
  intro v
  rw [mem_truthyModelVals]
  constructor
  · rintro ⟨fn, d, hmem, hyaml, hmodel, htruthy⟩
    obtain ⟨kv, hkv, hveq, _⟩ := hsecond fn d v hmem hyaml hmodel htruthy
    have hkvid : kv.1 ∈ catalog.map (fun m => m.id) :=
      (mem_buildApiDict_keys catalog kv.1).mp (List.mem_map.mpr ⟨kv, hkv, rfl⟩)
    obtain ⟨m, hm, hmid⟩ := List.mem_map.mp hkvid
    exact ⟨m, hm, by rw [hveq, hmid]⟩
  · rintro ⟨m, hm, rfl⟩
    have hmk : m.id ∈ (buildApiDict catalog).map Prod.fst :=
      (mem_buildApiDict_keys catalog m.id).mpr (List.mem_map.mpr ⟨m, hm, rfl⟩)
    obtain ⟨kv, hkv, hkid⟩ := List.mem_map.mp hmk
    obtain ⟨fn, d, hmem, hyaml, hmodel, hfd⟩ := hexist kv hkv
    rw [hkid] at hmodel
    refine ⟨fn, d, hmem, hyaml, hmodel, by simp [pyTruthy, hids m hm]⟩

/-- C2 (amended): from a well-formed starting state, a second run of the
reconciler against the unchanged catalog is a no-op: the index rewrite
leaves the directory unchanged (identical content), the second run
succeeds, keeps every file exactly as run 1 left it, and reports no
creations, no updates and no deletions. -/
theorem C2_amended {catalog : List ApiModel} {dir0 : DirState} {st : SyncSt}
    (hclean : CleanState catalog (dirAfterIndex catalog dir0))
    (hok : sync_yaml_files catalog dir0 = .ok st) :
    dirAfterIndex catalog st.dir = st.dir ∧
    ∃ st2, sync_yaml_files catalog st.dir = .ok st2 ∧ st2.dir = st.dir ∧
      st2.created = [] ∧ st2.updated = [] ∧ st2.deleted = [] :=
  sync_idempotent hclean hok

/-- C7: a file whose content is not a YAML mapping loads as the empty
mapping, contributes no registration to the existing-file map, and any
remote id left unregistered has a fresh definition file created from the
template and still present when the run completes. -/
theorem C7_thm {catalog : List ApiModel} {dir0 : DirState} {st : SyncSt}
    {fn : String} {s : String}
    (hclean : CleanState catalog (dirAfterIndex catalog dir0))
    (hok : sync_yaml_files catalog dir0 = .ok st)
    (hmem : (fn, FileContent.nonMapping s) ∈ dirAfterIndex catalog dir0) :
    load_yaml_file (some (FileContent.nonMapping s)) = [] ∧
    (∀ m, (m, fn) ∉ registrations (dirAfterIndex catalog dir0)) ∧
    (∀ kv ∈ buildApiDict catalog,
       (regGet (registrations (dirAfterIndex catalog dir0)) (Y.str kv.1)).isNone = true →
       ∃ d, create_yaml_template kv.1 kv.2 = .ok d ∧
         (derivedFileName kv.1, FileContent.yamlDoc d) ∈ st.dir) := by
  obtain ⟨hnd, hpres, hclass, hexist, htempl⟩ := sync_run_char hclean hok
  have hnd1 : ((dirAfterIndex catalog dir0).map Prod.fst).Nodup := hclean.1
  refine ⟨rfl, ?_, htempl⟩
  intro m hm
  obtain ⟨_, d, hd, _, _, _⟩ := mem_registrations_char hm
  exact FileContent.noConfusion (assoc_fst_functional hnd1 hd hmem)

/-- C10 (amended): from a well-formed starting state, a `.yaml` file whose
mapping lacks a truthy `model` value is registered to no model, and a
successful run leaves it in place with its content unchanged. -/
theorem C10_amended {catalog : List ApiModel} {dir0 : DirState} {st : SyncSt}
    {fn : String} {d : YDict}
    (hclean : CleanState catalog (dirAfterIndex catalog dir0))
    (hok : sync_yaml_files catalog dir0 = .ok st)
    (hmem : (fn, FileContent.yamlDoc d) ∈ dirAfterIndex catalog dir0)
    (hnotruthy : ∀ v, dictGet d "model" = some v → pyTruthy v = false) :
    (∀ m, (m, fn) ∉ registrations (dirAfterIndex catalog dir0)) ∧
    (fn, FileContent.yamlDoc d) ∈ st.dir ∧
    lookupFile st.dir fn = some (FileContent.yamlDoc d) := by
  obtain ⟨hnd, hpres, hclass, hexist, htempl⟩ := sync_run_char hclean hok
  have hnd1 : ((dirAfterIndex catalog dir0).map Prod.fst).Nodup := hclean.1
  have hunreg : ∀ m, (m, fn) ∉ registrations (dirAfterIndex catalog dir0) := by
    intro m hm
    obtain ⟨_, d', hd', _, hmodel', htruthy'⟩ := mem_registrations_char hm
    have hcc : FileContent.yamlDoc d' = FileContent.yamlDoc d :=
      assoc_fst_functional hnd1 hd' hmem
    injection hcc with hdd
    subst hdd
    rw [hnotruthy m hmodel'] at htruthy'
    cases htruthy'
  have hin : (fn, FileContent.yamlDoc d) ∈ st.dir := hpres _ _ hmem hunreg
  exact ⟨hunreg, hin, lookupFile_eq_some_of_mem st.dir fn _ hnd hin⟩

theorem C1_witness :
    CleanState catW1 (dirAfterIndex catW1 []) ∧
    sync_yaml_files catW1 [] = .ok stW1 ∧
    ((∀ v, v ∈ truthyModelVals stW1.dir ↔ ∃ m ∈ catW1, v = Y.str m.id) ∧
     (∀ fn d v, (fn, FileContent.yamlDoc d) ∈ stW1.dir → strEndsWith fn ".yaml" = true →
        dictGet d "model" = some v → pyTruthy v = true →
        ∃ kv ∈ buildApiDict catW1, v = Y.str kv.1 ∧ FieldsDerived kv.2 d)) :=
  ⟨by unfold CleanState; decide, by rfl,
    @C1_amended catW1 [] stW1 (by unfold CleanState; decide) (by rfl)⟩

theorem C2_witness :
    CleanState catW2 (dirAfterIndex catW2 []) ∧
    sync_yaml_files catW2 [] = .ok stW2 ∧
    (dirAfterIndex catW2 stW2.dir = stW2.dir ∧
     ∃ st2, sync_yaml_files catW2 stW2.dir = .ok st2 ∧ st2.dir = stW2.dir ∧
       st2.created = [] ∧ st2.updated = [] ∧ st2.deleted = []) :=
  ⟨by unfold CleanState; decide, by rfl,
    @C2_amended catW2 [] stW2 (by unfold CleanState; decide) (by rfl)⟩

theorem C7_witness :
    CleanState catW7 (dirAfterIndex catW7 dirW7) ∧
    sync_yaml_files catW7 dirW7 = .ok stW7 ∧
    ("bad.yaml", FileContent.nonMapping "not a mapping") ∈ dirAfterIndex catW7 dirW7 ∧
    (load_yaml_file (some (FileContent.nonMapping "not a mapping")) = [] ∧
     (∀ m, (m, "bad.yaml") ∉ registrations (dirAfterIndex catW7 dirW7)) ∧
     (∀ kv ∈ buildApiDict catW7,
        (regGet (registrations (dirAfterIndex catW7 dirW7)) (Y.str kv.1)).isNone = true →
        ∃ d, create_yaml_template kv.1 kv.2 = .ok d ∧
          (derivedFileName kv.1, FileContent.yamlDoc d) ∈ stW7.dir)) :=
  ⟨by unfold CleanState; decide, by rfl, by decide,
    @C7_thm catW7 dirW7 stW7 "bad.yaml" "not a mapping"
      (by unfold CleanState; decide) (by rfl) (by decide)⟩

theorem C10_witness :
    CleanState catW10 (dirAfterIndex catW10 dirW10) ∧
    sync_yaml_files catW10 dirW10 = .ok stW10 ∧
    ("junk.yaml", FileContent.yamlDoc [("note", Y.str "keep")]) ∈ dirAfterIndex catW10 dirW10 ∧
    ((∀ m, (m, "junk.yaml") ∉ registrations (dirAfterIndex catW10 dirW10)) ∧
     ("junk.yaml", FileContent.yamlDoc [("note", Y.str "keep")]) ∈ stW10.dir ∧
     lookupFile stW10.dir "junk.yaml" = some (FileContent.yamlDoc [("note", Y.str "keep")])) :=
  ⟨by unfold CleanState; decide, by rfl, by decide,
    @C10_amended catW10 dirW10 stW10 "junk.yaml" [("note", Y.str "keep")]
      (by unfold CleanState; decide) (by rfl) (by decide)
      (fun v h => Option.noConfusion h)⟩
